import Mathlib

/-!
# Media acquisition pipeline (package `downloader`)

A shallow embedding of `pkg/downloader/processor.go` and `pkg/downloader/video.go`.

* Go strings are sequences of characters (`Str`).
* A Go function returning `(T, error)` returns `Except GoError T`; the `nil`/zero value that
  accompanies a non-nil error is not represented.
* Code with effects threads the state it acts on explicitly: a function of Go type
  `func(args) (T, error)` becomes `args → σ → Except GoError T × σ`.
* Collaborators that are not part of these two files (the image downloader, the HTTP client,
  the hash function, the type sniffer, the URL parser, Unicode lower-casing) are parameters.
-/

namespace Downloader

/-- Go `string`. -/
abbrev Str := List Char

/-- Go `error` values: `new msg` is `errors.New(msg)` (or `fmt.Errorf` without `%w`),
`wrap pre cause` is an error that wraps `cause` and prints as `pre ++ ": " ++ cause`
(`errors.Wrap(cause, pre)`, or `fmt.Errorf("<pre>: %w", cause)`). -/
inductive GoError where
  | new (msg : Str)
  | wrap (pre : Str) (cause : GoError)
deriving DecidableEq

/-- The method `Error()`: the message of an error. -/
def GoError.Error : GoError → Str
  | .new msg => msg
  | .wrap pre cause => pre ++ ": ".toList ++ cause.Error

/-- The method `Unwrap()`: the wrapped error, if any. -/
def GoError.Unwrap : GoError → Option GoError
  | .new _ => none
  | .wrap _ cause => some cause

/-- `strings.HasPrefix`. -/
def HasPrefix (s pre : Str) : Bool := pre.isPrefixOf s

/-! ## Go standard library: strings, formatting, time, path/filepath (Unix) -/

/-- `strings.HasSuffix`. -/
def HasSuffix (s suffix : Str) : Bool := suffix.isSuffixOf s

/-- `strings.TrimSuffix`. -/
def TrimSuffix (s suffix : Str) : Str :=
  if HasSuffix s suffix then s.take (s.length - suffix.length) else s

/-- The verb `%d` on a Go integer. -/
def fmtInt : Int → Str
  | .ofNat n => Nat.toDigits 10 n
  | .negSucc n => '-' :: Nat.toDigits 10 (n + 1)

/-- A byte. -/
abbrev Byte := Fin 256

/-- The verb `%x` on one byte: two lower-case hexadecimal digits. -/
def fmtHexByte (b : Byte) : Str := [Nat.digitChar (b.val / 16), Nat.digitChar (b.val % 16)]

/-- The verb `%x` on a byte array. -/
def fmtHex : List Byte → Str
  | [] => []
  | b :: bs => fmtHexByte b ++ fmtHex bs

/-- The value of `sha256.Sum256`, a `[32]byte`. -/
structure Digest where
  bytes : List Byte
  size : bytes.length = 32

/-- A `time.Time`, as the number of nanoseconds since the Unix epoch. -/
abbrev Time := Int

/-- `Time.Unix`: whole seconds since the epoch. -/
def Time.Unix (t : Time) : Int := t / 1000000000

/-- `Time.UnixNano`: nanoseconds since the epoch, as an `int64`. -/
def Time.UnixNano (t : Time) : Int := (t + 2 ^ 63) % 2 ^ 64 - 2 ^ 63

/-- `Time.Before`. -/
def Time.Before (t u : Time) : Bool := decide (t < u)

/-- `Time.Add`; a `time.Duration` is a number of nanoseconds. -/
def Time.Add (t : Time) (d : Int) : Time := t + d

/-- `os.IsPathSeparator`. -/
def IsPathSeparator (c : Char) : Bool := c == '/'

/-- The backwards scan of `filepath.Ext`: `before` is the part of the path not yet visited,
last character first, `suffix` the part already visited. -/
def ExtScan : List Char → Str → Str
  | [], _ => []
  | c :: before, suffix =>
    if IsPathSeparator c then []
    else if c = '.' then c :: suffix
    else ExtScan before (c :: suffix)

/-- `filepath.Ext`: the suffix beginning at the final dot in the final element of `path`. -/
def Ext (path : Str) : Str := ExtScan path.reverse []

/-- `strings.Split(path, "/")`. -/
def splitSlash : Str → List Str
  | [] => [[]]
  | c :: rest =>
    if IsPathSeparator c then [] :: splitSlash rest
    else match splitSlash rest with
      | [] => [[c]]
      | e :: es => (c :: e) :: es

/-- `strings.Join(elems, "/")`. -/
def joinSlash : List Str → Str
  | [] => []
  | [e] => e
  | e :: es => e ++ '/' :: joinSlash es

/-- One path element consumed by `filepath.Clean`. `stack` holds the elements written so far,
last one first. Empty and `.` elements are dropped; `..` removes the last written element if
that is not itself `..`, is dropped at the root, and is kept otherwise. -/
def cleanStep (rooted : Bool) (stack : List Str) (elem : Str) : List Str :=
  if elem = [] ∨ elem = ['.'] then stack
  else if elem = ['.', '.'] then
    match stack with
    | [] => if rooted then [] else [elem]
    | top :: below => if top = ['.', '.'] then elem :: stack else below
  else elem :: stack

/-- Whether a path begins with a separator. -/
def isRooted (path : Str) : Bool := path.head? == some '/'

/-- The elements `filepath.Clean` keeps, last one first. -/
def cleanStack (rooted : Bool) (path : Str) : List Str :=
  (splitSlash path).foldl (cleanStep rooted) []

/-- The output of `filepath.Clean` for the kept elements. -/
def renderPath (rooted : Bool) (stack : List Str) : Str :=
  if rooted then '/' :: joinSlash stack.reverse
  else if stack = [] then ['.'] else joinSlash stack.reverse

/-- `filepath.Clean`: the shortest path name equivalent to `path` by lexical processing. -/
def Clean (path : Str) : Str :=
  if path = [] then ['.']
  else renderPath (isRooted path) (cleanStack (isRooted path) path)

/-- `filepath.Join`: leading empty elements are ignored, the rest is joined with the separator
and cleaned. -/
def Join : List Str → Str
  | [] => []
  | e :: rest => if e = [] then Join rest else Clean (joinSlash (e :: rest))

/-- The part of a path after its last separator. -/
def lastElement (path : Str) : Str :=
  (path.reverse.takeWhile (fun c => !IsPathSeparator c)).reverse

/-- `filepath.Base`. -/
def Base (path : Str) : Str :=
  if path = [] then ['.']
  else if lastElement (path.reverse.dropWhile IsPathSeparator).reverse = [] then ['/']
  else lastElement (path.reverse.dropWhile IsPathSeparator).reverse

/-- `filepath.Dir`: all but the last element of `path`, cleaned. -/
def Dir (path : Str) : Str :=
  Clean (path.reverse.dropWhile (fun c => !IsPathSeparator c)).reverse

/-- A path element that names an entry of a directory: not empty, not `.` or `..`, without
separator. -/
def isEntryName (name : Str) : Bool :=
  decide (name ≠ []) && decide (name ≠ ['.']) && decide (name ≠ ['.', '.']) &&
    !name.any IsPathSeparator

/-- The stacks `filepath.Clean` can reach: every element is a name or `..`, and `..` only sits
on top of other `..`, in a path that is not rooted. -/
def NormalStack (rooted : Bool) : List Str → Prop
  | [] => True
  | top :: below =>
    top ≠ [] ∧ top ≠ ['.'] ∧ (∀ c ∈ top, IsPathSeparator c = false) ∧
    (top = ['.', '.'] → rooted = false ∧ ∀ e ∈ below, e = ['.', '.']) ∧
    NormalStack rooted below

/-- What `filepath.Join` writes in front of a file name that is joined to the directory `dir`:
nothing for the current directory, the cleaned directory and a separator otherwise. -/
def joinPrefix (dir : Str) : Str :=
  if cleanStack (isRooted dir) dir = [] then (if isRooted dir then ['/'] else [])
  else Clean dir ++ ['/']

/-! ## The file system -/

/-- A regular file: its content and its modification time. -/
structure File where
  data : List Byte
  modTime : Time
deriving DecidableEq

/-- What a path names. -/
inductive Node where
  | file (f : File)
  | dir
deriving DecidableEq

/-- The file system: the paths that exist, in the form `filepath.Clean` gives them, and what
each names. The first binding of a path is the one in force. -/
abbrev FS := List (Str × Node)

/-- The node a path names, if it exists. -/
def FS.lookup (fs : FS) (name : Str) : Option Node :=
  match fs with
  | [] => none
  | (p, node) :: rest => if p = name then some node else FS.lookup rest name

/-- The file system without `name`. -/
def FS.erase (fs : FS) (name : Str) : FS := fs.filter (fun e => decide (e.1 ≠ name))

/-- The file system in which `name` names `node`. -/
def FS.set (fs : FS) (name : Str) (node : Node) : FS := (name, node) :: FS.erase fs name

/-- Whether something exists below the directory `name`. -/
def FS.hasChildren (fs : FS) (name : Str) : Bool :=
  fs.any (fun e => HasPrefix e.1 (name ++ ['/']))

/-- `os.Create`: creates or truncates the named file; fails on a directory. `stamp` is the
modification time the file system gives the file. The directory the file is created in is
taken to exist: `NewVideoDownloader` creates the save directory. -/
def osCreate (fs : FS) (name : Str) (stamp : Time) : Except GoError FS :=
  match FS.lookup fs name with
  | some .dir => .error (.new ("open ".toList ++ name ++ ": is a directory".toList))
  | _ => .ok (FS.set fs name (.file ⟨[], stamp⟩))

/-- A byte stream to read from, as `io.Copy` sees it: `data` is what is transferred, and `err`
the error the copy then ends with, if it does not end with a clean end of stream. -/
structure Stream where
  data : List Byte
  err : Option GoError

/-- `io.Copy(file, src)` on the open file `name`: the number of bytes written, the error, and
the file system with the bytes appended to the file. -/
def ioCopy (fs : FS) (name : Str) (src : Stream) (stamp : Time) : (Nat × Option GoError) × FS :=
  match FS.lookup fs name with
  | some (.file f) =>
    ((src.data.length, src.err), FS.set fs name (.file ⟨f.data ++ src.data, stamp⟩))
  | _ => ((0, some (.new ("write ".toList ++ name ++ ": bad file descriptor".toList))), fs)

/-- `os.Remove`: removes the named file or empty directory. `refuse` gives, for a path the
system does not let go of (a file that is still open, on a system that forbids removing open
files; an entry of a directory that cannot be written), the error the removal fails with, and
then the file system stays as it is. The callers in `video.go` drop the error returned. -/
def osRemove (refuse : Str → Option GoError) (fs : FS) (name : Str) : Except GoError Unit × FS :=
  match refuse name with
  | some err => (.error err, fs)
  | none =>
    match FS.lookup fs name with
    | none =>
      (.error (.new ("remove ".toList ++ name ++ ": no such file or directory".toList)), fs)
    | some (.file _) => (.ok (), FS.erase fs name)
    | some .dir =>
      if FS.hasChildren fs name then
        (.error (.new ("remove ".toList ++ name ++ ": directory not empty".toList)), fs)
      else (.ok (), FS.erase fs name)

/-- `os.Rename` of a regular file: fails, changing nothing, when `oldpath` is not a regular file
or `newpath` is a directory; otherwise `newpath` names the file, replacing what it named. -/
def osRename (fs : FS) (oldpath newpath : Str) : Except GoError Unit × FS :=
  match FS.lookup fs oldpath with
  | some (.file f) =>
    match FS.lookup fs newpath with
    | some .dir =>
      (.error (.new ("rename ".toList ++ oldpath ++ " ".toList ++ newpath ++
        ": file exists".toList)), fs)
    | _ => (.ok (), FS.set (FS.erase fs oldpath) newpath (.file f))
  | _ =>
    (.error (.new ("rename ".toList ++ oldpath ++ " ".toList ++ newpath ++
      ": no such file or directory".toList)), fs)

/-- `os.Open`. -/
def osOpen (fs : FS) (name : Str) : Except GoError Node :=
  match FS.lookup fs name with
  | none => .error (.new ("open ".toList ++ name ++ ": no such file or directory".toList))
  | some node => .ok node

/-- `file.Read(head)` followed by `head[:n]`, for a buffer of `size` bytes; `io.EOF`, which the
caller lets pass, is not an error here. -/
def fileRead (node : Node) (size : Nat) : Except GoError (List Byte) :=
  match node with
  | .file f => .ok (f.data.take size)
  | .dir => .error (.new "read: is a directory".toList)

/-- `fs.FileInfo`, as far as it is used. -/
structure FileInfo where
  ModTime : Time

/-- `os.DirEntry`, as far as it is used. -/
structure DirEntry where
  Name : Str
  IsDir : Bool
  Info : Except GoError FileInfo

/-- Whether `path` is a direct entry of the directory `dir`. -/
def isDirectEntry (dir path : Str) : Bool :=
  isEntryName (Base path) && decide (Join [dir, Base path] = path)

/-- The directory entry for an existing path. Directories carry no modification time here;
the code reads none. -/
def dirEntryOf (fs : FS) (path : Str) : Option DirEntry :=
  match FS.lookup fs path with
  | none => none
  | some (.file f) => some ⟨Base path, false, .ok ⟨f.modTime⟩⟩
  | some .dir => some ⟨Base path, true, .ok ⟨0⟩⟩

/-- `os.ReadDir`: the direct entries of the directory `name`. The order of the entries, which
`os.ReadDir` sorts by file name, is left as it is in the file system. -/
def osReadDir (fs : FS) (name : Str) : Except GoError (List DirEntry) :=
  match FS.lookup fs (Clean name) with
  | some .dir =>
    .ok ((fs.filter (fun e => isDirectEntry name e.1)).filterMap (fun e => dirEntryOf fs e.1))
  | _ => .error (.new ("open ".toList ++ name ++ ": no such file or directory".toList))

/-! ## video.go -/

/-- `url.URL`, as far as it is used. -/
structure URL where
  Scheme : Str
  Host : Str

/-- `http.Response`, as far as it is used. -/
structure Response where
  StatusCode : Int
  Body : Stream

/-- `types.Type` of the file type library, as far as it is used. -/
structure Kind where
  Extension : Str

/-- What `video.go` calls outside the repository, and the clock. -/
structure Env where
  /-- `strings.ToLower` -/
  ToLower : Str → Str
  /-- `url.Parse` -/
  Parse : Str → Except GoError URL
  /-- `sha256.Sum256` -/
  Sum256 : Str → Digest
  /-- `d.httpClient.Get` -/
  Get : Str → Except GoError Response
  /-- `filetype.Match` -/
  Match : List Byte → Except GoError Kind
  /-- `filetype.IsVideo` -/
  IsVideo : List Byte → Bool
  /-- `time.Now()` -/
  Now : Time
  /-- The modification time the file system gives to a file written during the call. -/
  Stamp : Time
  /-- The removals the system refuses, with the error `os.Remove` then returns. -/
  RemoveErr : Str → Option GoError

/-- `VideoDownloader`; the HTTP client is part of `Env`. -/
structure VideoDownloader where
  savePath : Str

/-- `http.StatusOK`. -/
def StatusOK : Int := 200

/-- `VideoDownloader.isValidVideoURL`. -/
def isValidVideoURL (env : Env) (rawURL : Str) : Bool :=
  if !HasPrefix (env.ToLower rawURL) "http://".toList &&
      !HasPrefix (env.ToLower rawURL) "https://".toList then
    false
  else
    match env.Parse rawURL with
    | .error _ => false
    | .ok parsedURL => decide (parsedURL.Scheme ≠ []) && decide (parsedURL.Host ≠ [])

/-- The file name `generateFileName` gives, up to the dot and the extension. -/
def fileStem (Sum256 : Str → Digest) (now : Time) (videoURL : Str) : Str :=
  "video_".toList ++ (fmtHex (Sum256 videoURL).bytes).take 16 ++ "_".toList ++
    fmtInt (Time.Unix now)

/-- `VideoDownloader.generateFileName`. -/
def generateFileName (Sum256 : Str → Digest) (now : Time) (videoURL extension : Str) : Str :=
  let hashStr := fmtHex (Sum256 videoURL).bytes
  let shortHash := hashStr.take 16
  let timestamp := Time.Unix now
  "video_".toList ++ shortHash ++ "_".toList ++ fmtInt timestamp ++ ".".toList ++ extension

/-- `VideoDownloader.validateAndRename`. -/
def validateAndRename (env : Env) (filePath : Str) (fs : FS) : Except GoError Str × FS :=
  match osOpen fs filePath with
  | .error err => (.error err, fs)
  | .ok file =>
    match fileRead file 8192 with
    | .error err => (.error err, fs)
    | .ok head =>
      match env.Match head with
      | .error err => (.error (.wrap "failed to detect video type".toList err), fs)
      | .ok kind =>
        if !env.IsVideo head then
          (.error (.new "uploaded file is not a valid video".toList), fs)
        else if kind.Extension ≠ [] then
          let dir := Dir filePath
          let base := TrimSuffix (Base filePath) (Ext filePath)
          let newPath := Join [dir, base ++ ".".toList ++ kind.Extension]
          if newPath ≠ filePath then
            match osRename fs filePath newPath with
            | (.error _, fs1) => (.ok filePath, fs1)
            | (.ok _, fs1) => (.ok newPath, fs1)
          else (.ok filePath, fs)
        else (.ok filePath, fs)

/-- `VideoDownloader.DownloadVideo`. -/
def DownloadVideo (env : Env) (d : VideoDownloader) (videoURL : Str) (fs : FS) :
    Except GoError Str × FS :=
  if !isValidVideoURL env videoURL then
    (.error (.new "invalid video URL format".toList), fs)
  else
    match env.Get videoURL with
    | .error err => (.error (.wrap "failed to download video".toList err), fs)
    | .ok resp =>
      if resp.StatusCode ≠ StatusOK then
        (.error (.new ("download failed with status: ".toList ++ fmtInt resp.StatusCode)), fs)
      else
        let fileName := generateFileName env.Sum256 env.Now videoURL "mp4".toList
        let filePath := Join [d.savePath, fileName]
        match osCreate fs filePath env.Stamp with
        | .error err => (.error (.wrap "failed to create video file".toList err), fs)
        | .ok fs1 =>
          match ioCopy fs1 filePath resp.Body env.Stamp with
          | ((_, some err), fs2) =>
            (.error (.wrap "failed to save video".toList err), (osRemove env.RemoveErr fs2 filePath).2)
          | ((written, none), fs2) =>
            if written = 0 then
              (.error (.new "downloaded video is empty".toList), (osRemove env.RemoveErr fs2 filePath).2)
            else
              match validateAndRename env filePath fs2 with
              | (.error err, fs3) => (.error err, (osRemove env.RemoveErr fs3 filePath).2)
              | (.ok actualPath, fs3) => (.ok actualPath, fs3)

/-- The file name `SaveUploadedVideo` generates (its first statements). -/
def uploadFileName (Sum256 : Str → Digest) (now : Time) (originalName : Str) : Str :=
  let ext := if Ext originalName = [] then ".mp4".toList else Ext originalName
  let timestamp := Time.UnixNano now
  let hash := Sum256 (originalName ++ "_".toList ++ fmtInt timestamp)
  let hashStr := (fmtHex hash.bytes).take 16
  "video_".toList ++ hashStr ++ "_".toList ++ fmtInt timestamp ++ ext

/-- `VideoDownloader.SaveUploadedVideo`. -/
def SaveUploadedVideo (env : Env) (d : VideoDownloader) (reader : Stream) (originalName : Str)
    (fs : FS) : Except GoError Str × FS :=
  let fileName := uploadFileName env.Sum256 env.Now originalName
  let filePath := Join [d.savePath, fileName]
  match osCreate fs filePath env.Stamp with
  | .error err => (.error (.wrap "failed to create video file".toList err), fs)
  | .ok fs1 =>
    match ioCopy fs1 filePath reader env.Stamp with
    | ((_, some err), fs2) =>
      (.error (.wrap "failed to save video".toList err), (osRemove env.RemoveErr fs2 filePath).2)
    | ((written, none), fs2) =>
      if written = 0 then
        (.error (.new "uploaded video is empty".toList), (osRemove env.RemoveErr fs2 filePath).2)
      else (.ok filePath, fs2)

/-- Whether `path` names a regular file modified strictly before `cutoff`. -/
def isFileBefore (fs : FS) (cutoff : Time) (path : Str) : Bool :=
  match FS.lookup fs path with
  | some (.file f) => decide (f.modTime < cutoff)
  | _ => false

/-- The body of the loop of `CleanupOldVideos` for one entry. -/
def cleanupEntry (refuse : Str → Option GoError) (d : VideoDownloader) (cutoff : Time) (fs : FS)
    (entry : DirEntry) : FS :=
  if entry.IsDir then fs
  else
    match entry.Info with
    | .error _ => fs
    | .ok info =>
      if info.ModTime.Before cutoff then
        (osRemove refuse fs (Join [d.savePath, entry.Name])).2
      else fs

/-- `VideoDownloader.CleanupOldVideos`; `now` is `time.Now()`, `refuse` the removals the system
refuses, and `maxAge` a `time.Duration`. -/
def CleanupOldVideos (now : Time) (refuse : Str → Option GoError) (d : VideoDownloader)
    (maxAge : Int) (fs : FS) : Except GoError Unit × FS :=
  match osReadDir fs d.savePath with
  | .error err => (.error err, fs)
  | .ok entries =>
    let cutoff := now.Add (-maxAge)
    (.ok (), entries.foldl (cleanupEntry refuse d cutoff) fs)

/-! ## processor.go -/

/-- One call of a downloader: the reference it was given and what it returned. -/
abbrev Call := Str × Except GoError Str

/-- A downloader that also records each of its calls, in order, next to the state. -/
def traced {σ : Type} (download : Str → σ → Except GoError Str × σ) :
    Str → σ × List Call → Except GoError Str × (σ × List Call) :=
  fun url st => ((download url st.1).1, ((download url st.1).2, st.2 ++ [(url, (download url st.1).1)]))

/-- The `for _, image := range images` loop of `ProcessImages`; `localPaths` is the slice built
so far. `IsImageURL` and `DownloadImage` belong to the image downloader. -/
def ProcessImagesLoop {σ : Type} (IsImageURL : Str → Bool)
    (DownloadImage : Str → σ → Except GoError Str × σ) :
    List Str → List Str → σ → Except GoError (List Str) × σ
  | [], localPaths, s => (.ok localPaths, s)
  | image :: rest, localPaths, s =>
    if IsImageURL image then
      match DownloadImage image s with
      | (.error err, s1) => (.error (.wrap ("下载图片失败 ".toList ++ image) err), s1)
      | (.ok localPath, s1) =>
        ProcessImagesLoop IsImageURL DownloadImage rest (localPaths ++ [localPath]) s1
    else
      ProcessImagesLoop IsImageURL DownloadImage rest (localPaths ++ [image]) s

/-- `ImageProcessor.ProcessImages`. -/
def ProcessImages {σ : Type} (IsImageURL : Str → Bool)
    (DownloadImage : Str → σ → Except GoError Str × σ) (images : List Str) (s : σ) :
    Except GoError (List Str) × σ :=
  match ProcessImagesLoop IsImageURL DownloadImage images [] s with
  | (.error err, s1) => (.error err, s1)
  | (.ok localPaths, s1) =>
    if localPaths.length = 0 then (.error (.new "no valid images found".toList), s1)
    else (.ok localPaths, s1)

/-- `IsVideoURL`; `ToLower` is `strings.ToLower`. -/
def IsVideoURL (ToLower : Str → Str) (path : Str) : Bool :=
  HasPrefix (ToLower path) "http://".toList || HasPrefix (ToLower path) "https://".toList

/-- `VideoProcessor.ProcessVideo`; `DownloadVideo` is the method of the processor's downloader. -/
def ProcessVideo {σ : Type} (ToLower : Str → Str)
    (DownloadVideo : Str → σ → Except GoError Str × σ) (video : Str) (s : σ) :
    Except GoError Str × σ :=
  if IsVideoURL ToLower video then
    match DownloadVideo video s with
    | (.error err, s1) => (.error (.wrap ("下载视频失败 ".toList ++ video) err), s1)
    | (.ok localPath, s1) => (.ok localPath, s1)
  else
    (.ok video, s)

/-- The state left by calling a downloader on each reference of `urls` in turn, and doing
nothing else. -/
def runDownloads {σ : Type} (download : Str → σ → Except GoError Str × σ) (urls : List Str)
    (s : σ) : σ :=
  urls.foldl (fun st url => (download url st).2) s

/-! ## Sample collaborators, used to run the definitions on concrete inputs -/

/-- Lower-casing of the ASCII letters, which is what `strings.ToLower` does on ASCII input. -/
def asciiToLower (s : Str) : Str := s.map Char.toLower

/-- A sample downloader over a counter of stored files: references under `http://ok/` are
stored, every other reference fails. -/
def sampleDownload (url : Str) (n : Nat) : Except GoError Str × Nat :=
  if HasPrefix url "http://ok/".toList then (.ok ("/images/".toList ++ url.drop 10), n + 1)
  else (.error (.new "status 404".toList), n)

/-- A sample digest. -/
def sampleDigest : Digest := ⟨List.replicate 32 171, rfl⟩

/-- A sample environment: every URL parses, the request is answered with `resp`, and every
non-empty content is sniffed as a video of extension `ext`. -/
def sampleEnv (resp : Response) (ext : Str) : Env where
  ToLower := asciiToLower
  Parse := fun _ => .ok ⟨"http".toList, "host".toList⟩
  Sum256 := fun _ => sampleDigest
  Get := fun _ => .ok resp
  Match := fun head => if head = [] then .error (.new "Empty buffer".toList) else .ok ⟨ext⟩
  IsVideo := fun head => decide (head ≠ [])
  Now := 1700000000250000000
  Stamp := 1700000000300000000
  RemoveErr := fun _ => none

/-- The sample environment with the clock at `now`. -/
def sampleEnvAt (now : Time) (resp : Response) (ext : Str) : Env :=
  { sampleEnv resp ext with Now := now }

/-- A system that refuses every removal. -/
def refuseAll (name : Str) : Option GoError :=
  some (.new ("remove ".toList ++ name ++ ": permission denied".toList))

/-- A system that refuses no removal. -/
def refuseNone (_ : Str) : Option GoError := none

/-- The sample environment on a system that refuses every removal. -/
def sampleEnvRefusing (resp : Response) (ext : Str) : Env :=
  { sampleEnv resp ext with RemoveErr := refuseAll }

/-- A sample downloader, saving under `/videos`. -/
def sampleDownloader : VideoDownloader := ⟨"/videos".toList⟩

/-- A sample file system: the save directory, holding one regular file and one subdirectory
with a file in it. -/
def sampleFS : FS :=
  [("/videos".toList, .dir),
   ("/videos/old.mp4".toList, .file ⟨[1, 2, 3], 1600000000000000000⟩),
   ("/videos/sub".toList, .dir),
   ("/videos/sub/kept.mp4".toList, .file ⟨[4], 1500000000000000000⟩)]

/-- The sample file system after a download stored three bytes under its provisional name. -/
def sampleStored : FS :=
  FS.set sampleFS "/videos/video_abababababababab_1700000000.mp4".toList
    (.file ⟨[1, 2, 3], 1700000000300000000⟩)

/-- The same, with a directory in the place of the corrected name. -/
def sampleBlocked : FS :=
  FS.set sampleStored "/videos/video_abababababababab_1700000000.webm".toList .dir

/-! # Theorems -/

/-! ## path/filepath -/

theorem splitSlash_ne_nil (p : Str) : splitSlash p ≠ [] := by
  cases p with
  | nil => simp [splitSlash]
  | cons c rest =>
    unfold splitSlash
    split
    · simp
    · split <;> simp

theorem splitSlash_append_sep (a b : Str) :
    splitSlash (a ++ '/' :: b) = splitSlash a ++ splitSlash b := by
  induction a with
  | nil => simp [splitSlash, IsPathSeparator]
  | cons c a ih =>
    by_cases hc : IsPathSeparator c = true
    · simp [splitSlash, hc, ih]
    · have hcf : IsPathSeparator c = false := by simpa using hc
      have e1 : ∀ l : Str, splitSlash (c :: l) =
          match splitSlash l with
          | [] => [[c]]
          | e :: es => (c :: e) :: es := by
        intro l
        simp [splitSlash, hcf]
      rw [List.cons_append, e1, e1, ih]
      cases hs : splitSlash a with
      | nil => exact absurd hs (splitSlash_ne_nil a)
      | cons e es => simp

theorem splitSlash_of_sepFree (n : Str) (h : ∀ c ∈ n, IsPathSeparator c = false) :
    splitSlash n = [n] := by
  induction n with
  | nil => rfl
  | cons c n ih =>
    have hc : IsPathSeparator c = false := h c (List.mem_cons_self _ _)
    have hn := ih (fun x hx => h x (List.mem_cons_of_mem _ hx))
    simp [splitSlash, hc, hn]

theorem splitSlash_sepFree (p : Str) : ∀ e ∈ splitSlash p, ∀ c ∈ e, IsPathSeparator c = false := by
  induction p with
  | nil =>
    intro e he c hc
    simp [splitSlash] at he
    subst he
    simp at hc
  | cons x p ih =>
    intro e he c hc
    by_cases hx : IsPathSeparator x = true
    · simp only [splitSlash, hx, if_true, List.mem_cons] at he
      rcases he with rfl | he
      · simp at hc
      · exact ih e he c hc
    · have hxf : IsPathSeparator x = false := by simpa using hx
      simp only [splitSlash, hxf, Bool.false_eq_true, if_false] at he
      cases hs : splitSlash p with
      | nil => exact absurd hs (splitSlash_ne_nil p)
      | cons e0 es =>
        rw [hs] at he ih
        simp only [List.mem_cons] at he
        rcases he with rfl | he
        · rcases List.mem_cons.1 hc with rfl | hc
          · exact hxf
          · exact ih e0 (List.mem_cons_self _ _) c hc
        · exact ih e (List.mem_cons_of_mem _ he) c hc

theorem joinSlash_append_singleton (xs : List Str) (n : Str) (hx : xs ≠ []) :
    joinSlash (xs ++ [n]) = joinSlash xs ++ '/' :: n := by
  induction xs with
  | nil => exact absurd rfl hx
  | cons e es ih =>
    cases es with
    | nil => simp [joinSlash]
    | cons e1 es1 =>
      have := ih (by simp)
      simp only [List.cons_append] at this ⊢
      simp [joinSlash, this]

theorem splitSlash_joinSlash (comps : List Str) (hne : comps ≠ [])
    (h : ∀ e ∈ comps, ∀ c ∈ e, IsPathSeparator c = false) :
    splitSlash (joinSlash comps) = comps := by
  induction comps with
  | nil => exact absurd rfl hne
  | cons e es ih =>
    cases es with
    | nil => simpa [joinSlash] using splitSlash_of_sepFree e (h e (List.mem_cons_self _ _))
    | cons e1 es1 =>
      have h1 := ih (by simp) (fun x hx => h x (List.mem_cons_of_mem _ hx))
      have h2 := splitSlash_of_sepFree e (h e (List.mem_cons_self _ _))
      simp only [joinSlash]
      rw [splitSlash_append_sep, h2, h1]
      rfl

theorem cleanStack_append_sep (r : Bool) (a b : Str) :
    cleanStack r (a ++ '/' :: b) = (splitSlash b).foldl (cleanStep r) (cleanStack r a) := by
  simp [cleanStack, splitSlash_append_sep, List.foldl_append]

theorem isEntryName_iff (n : Str) :
    isEntryName n = true ↔
      n ≠ [] ∧ n ≠ ['.'] ∧ n ≠ ['.', '.'] ∧ ∀ c ∈ n, IsPathSeparator c = false := by
  simp [isEntryName, and_assoc]

theorem cleanStep_entryName (r : Bool) (stk : List Str) (n : Str) (h : isEntryName n = true) :
    cleanStep r stk n = n :: stk := by
  obtain ⟨h1, h2, h3, _⟩ := (isEntryName_iff n).1 h
  simp [cleanStep, h1, h2, h3]

theorem isRooted_append (a b : Str) (ha : a ≠ []) : isRooted (a ++ b) = isRooted a := by
  cases a with
  | nil => exact absurd rfl ha
  | cons c a => rfl

theorem isRooted_of_sepFree (n : Str) (h : ∀ c ∈ n, IsPathSeparator c = false) :
    isRooted n = false := by
  cases n with
  | nil => rfl
  | cons c n =>
    have hc := h c (List.mem_cons_self _ _)
    simp only [IsPathSeparator, beq_eq_false_iff_ne, ne_eq] at hc
    simp [isRooted, hc]

theorem Clean_eq (p : Str) :
    Clean p = renderPath (isRooted p) (cleanStack (isRooted p) p) := by
  by_cases hp : p = []
  · subst hp
    rfl
  · simp [Clean, hp]

theorem NormalStack_append (r : Bool) (a b : List Str) (h : NormalStack r (a ++ b)) :
    NormalStack r b := by
  induction a with
  | nil => exact h
  | cons e a ih => exact ih h.2.2.2.2

theorem NormalStack_cleanStep (r : Bool) (stk : List Str) (e : Str) (hs : NormalStack r stk)
    (he : ∀ c ∈ e, IsPathSeparator c = false) : NormalStack r (cleanStep r stk e) := by
  unfold cleanStep
  by_cases h1 : e = [] ∨ e = ['.']
  · rw [if_pos h1]
    exact hs
  · rw [if_neg h1]
    have h1a : e ≠ [] := fun h => h1 (Or.inl h)
    have h1b : e ≠ ['.'] := fun h => h1 (Or.inr h)
    by_cases h2 : e = ['.', '.']
    · rw [if_pos h2]
      cases stk with
      | nil =>
        cases r with
        | true => exact trivial
        | false => exact ⟨h1a, h1b, he, fun _ => ⟨rfl, by simp⟩, trivial⟩
      | cons top below =>
        by_cases h3 : top = ['.', '.']
        · simp only [h3, if_true]
          obtain ⟨hr, hall⟩ := hs.2.2.2.1 h3
          refine ⟨h1a, h1b, he, fun _ => ⟨hr, ?_⟩, ?_⟩
          · intro x hx
            rcases List.mem_cons.1 hx with rfl | hx
            · rfl
            · exact hall x hx
          · rw [← h3]
            exact hs
        · simp only [h3, if_false]
          exact hs.2.2.2.2
    · rw [if_neg h2]
      exact ⟨h1a, h1b, he, fun h => absurd h h2, hs⟩

theorem NormalStack_foldl (r : Bool) :
    ∀ (comps : List Str) (acc : List Str), NormalStack r acc →
      (∀ e ∈ comps, ∀ c ∈ e, IsPathSeparator c = false) →
      NormalStack r (comps.foldl (cleanStep r) acc) := by
  intro comps
  induction comps with
  | nil => intro acc h _; exact h
  | cons e comps ih =>
    intro acc h hsep
    exact ih _ (NormalStack_cleanStep r acc e h (hsep e (List.mem_cons_self _ _)))
      (fun x hx => hsep x (List.mem_cons_of_mem _ hx))

theorem NormalStack_cleanStack (r : Bool) (p : Str) : NormalStack r (cleanStack r p) :=
  NormalStack_foldl r _ [] trivial (splitSlash_sepFree p)

theorem NormalStack_sepFree (r : Bool) :
    ∀ (stk : List Str), NormalStack r stk → ∀ e ∈ stk, ∀ c ∈ e, IsPathSeparator c = false := by
  intro stk
  induction stk with
  | nil => intro _ e he; simp at he
  | cons top below ih =>
    intro h e he
    rcases List.mem_cons.1 he with rfl | he
    · exact h.2.2.1
    · exact ih h.2.2.2.2 e he

/-- Cleaning the elements of a normal stack again gives the stack back. -/
theorem cleanStep_foldl_normal (r : Bool) :
    ∀ (comps acc : List Str), NormalStack r (comps.reverse ++ acc) →
      comps.foldl (cleanStep r) acc = comps.reverse ++ acc := by
  intro comps
  induction comps with
  | nil => intro acc _; rfl
  | cons e comps ih =>
    intro acc h
    have h' : NormalStack r (comps.reverse ++ (e :: acc)) := by
      simpa using h
    have he : NormalStack r (e :: acc) := NormalStack_append r _ _ h'
    have hstep : cleanStep r acc e = e :: acc := by
      obtain ⟨h1, h2, _, h4, _⟩ := he
      unfold cleanStep
      rw [if_neg (by simp [h1, h2])]
      by_cases h3 : e = ['.', '.']
      · rw [if_pos h3]
        obtain ⟨hr, hall⟩ := h4 h3
        cases acc with
        | nil => simp [hr]
        | cons top below => simp [hall top (List.mem_cons_self _ _)]
      · rw [if_neg h3]
    rw [List.foldl_cons, hstep, ih _ h']
    simp

theorem cleanStack_renderPath (r : Bool) (stk : List Str) (h : NormalStack r stk) :
    cleanStack r (renderPath r stk) = stk := by
  have hfold : stk.reverse.foldl (cleanStep r) [] = stk := by
    have := cleanStep_foldl_normal r stk.reverse [] (by simpa using h)
    simpa using this
  have hsep : ∀ e ∈ stk.reverse, ∀ c ∈ e, IsPathSeparator c = false :=
    fun e he => NormalStack_sepFree r stk h e (List.mem_reverse.1 he)
  by_cases hs : stk = []
  · subst hs
    cases r <;> rfl
  · have hne : stk.reverse ≠ [] := by simpa using hs
    have hsplit := splitSlash_joinSlash stk.reverse hne hsep
    cases r with
    | true =>
      have : splitSlash ('/' :: joinSlash stk.reverse) = [] :: stk.reverse := by
        simp [splitSlash, IsPathSeparator, hsplit]
      simp only [renderPath, if_true, cleanStack, this, List.foldl_cons]
      have h0 : cleanStep true [] [] = [] := rfl
      rw [h0, hfold]
    | false =>
      simp only [renderPath, Bool.false_eq_true, if_false, hs, cleanStack, hsplit, hfold]

theorem isRooted_renderPath (r : Bool) (stk : List Str) (h : NormalStack r stk) :
    isRooted (renderPath r stk) = r := by
  cases r with
  | true => rfl
  | false =>
    by_cases hs : stk = []
    · subst hs
      rfl
    · simp only [renderPath, Bool.false_eq_true, if_false, hs]
      obtain ⟨l, a, hl⟩ : ∃ l a, stk = l ++ [a] := by
        rcases List.eq_nil_or_concat stk with h0 | ⟨l, a, h0⟩
        · exact absurd h0 hs
        · exact ⟨l, a, by simpa using h0⟩
      have ha : NormalStack false [a] := NormalStack_append false l [a] (hl ▸ h)
      have hrev : stk.reverse = a :: l.reverse := by simp [hl]
      rw [hrev]
      cases a with
      | nil => exact absurd rfl ha.1
      | cons c a =>
        have hc := ha.2.2.1 c (List.mem_cons_self _ _)
        simp only [IsPathSeparator, beq_eq_false_iff_ne, ne_eq] at hc
        cases hlr : l.reverse with
        | nil => simp [joinSlash, isRooted, hc]
        | cons x xs => simp [joinSlash, isRooted, hc]

theorem renderPath_ne_nil (r : Bool) (stk : List Str) (h : NormalStack r stk) :
    renderPath r stk ≠ [] := by
  cases r with
  | true => simp [renderPath]
  | false =>
    by_cases hs : stk = []
    · simp [renderPath, hs]
    · simp only [renderPath, Bool.false_eq_true, if_false, hs]
      obtain ⟨l, a, hl⟩ : ∃ l a, stk = l ++ [a] := by
        rcases List.eq_nil_or_concat stk with h0 | ⟨l, a, h0⟩
        · exact absurd h0 hs
        · exact ⟨l, a, by simpa using h0⟩
      have ha : NormalStack false [a] := NormalStack_append false l [a] (hl ▸ h)
      have hrev : stk.reverse = a :: l.reverse := by simp [hl]
      rw [hrev]
      cases a with
      | nil => exact absurd rfl ha.1
      | cons c a =>
        cases hlr : l.reverse with
        | nil => simp [joinSlash]
        | cons x xs => simp [joinSlash]

theorem Clean_ne_nil (p : Str) : Clean p ≠ [] := by
  rw [Clean_eq]
  exact renderPath_ne_nil _ _ (NormalStack_cleanStack _ _)

/-- `Clean` is idempotent. -/
theorem Clean_Clean (p : Str) : Clean (Clean p) = Clean p := by
  have hn := NormalStack_cleanStack (isRooted p) p
  rw [Clean_eq (Clean p)]
  rw [Clean_eq p, isRooted_renderPath _ _ hn, cleanStack_renderPath _ _ hn]

theorem renderPath_cons (r : Bool) (stk : List Str) (n : Str) :
    renderPath r (n :: stk) =
      (if stk = [] then (if r then ['/'] else []) else renderPath r stk ++ ['/']) ++ n := by
  by_cases hs : stk = []
  · subst hs
    cases r <;> simp [renderPath, joinSlash]
  · have hne : stk.reverse ≠ [] := by simpa using hs
    have hj := joinSlash_append_singleton stk.reverse n hne
    cases r <;> simp [renderPath, hs, hj]

/-- Joining a directory and an entry name: the prefix of the directory, then the name. -/
theorem Join_pair (d n : Str) (h : isEntryName n = true) : Join [d, n] = joinPrefix d ++ n := by
  obtain ⟨h1, _, _, h4⟩ := (isEntryName_iff n).1 h
  have hstack : cleanStack (isRooted d) (joinSlash [d, n]) = n :: cleanStack (isRooted d) d := by
    have : joinSlash [d, n] = d ++ '/' :: n := rfl
    rw [this, cleanStack_append_sep, splitSlash_of_sepFree n h4]
    simp [cleanStep_entryName _ _ n h]
  by_cases hd : d = []
  · subst hd
    have hj : Join [[], n] = Clean n := by simp [Join, h1, joinSlash]
    have hr : isRooted n = false := isRooted_of_sepFree n h4
    have hc : cleanStack false n = [n] := by
      simp [cleanStack, splitSlash_of_sepFree n h4, cleanStep_entryName _ _ n h]
    rw [hj, Clean_eq, hr, hc]
    simp [joinPrefix, isRooted, cleanStack, splitSlash, cleanStep, renderPath, joinSlash]
  · have hj : Join [d, n] = Clean (joinSlash [d, n]) := by simp [Join, hd]
    have hr : isRooted (joinSlash [d, n]) = isRooted d := isRooted_append d _ hd
    rw [hj, Clean_eq, hr, hstack, renderPath_cons, joinPrefix, Clean_eq d]

theorem isRooted_Clean (d : Str) : isRooted (Clean d) = isRooted d := by
  rw [Clean_eq]
  exact isRooted_renderPath _ _ (NormalStack_cleanStack _ _)

theorem cleanStack_Clean (d : Str) :
    cleanStack (isRooted d) (Clean d) = cleanStack (isRooted d) d := by
  rw [Clean_eq]
  exact cleanStack_renderPath _ _ (NormalStack_cleanStack _ _)

theorem joinPrefix_shape (d : Str) : joinPrefix d = [] ∨ ∃ q, joinPrefix d = q ++ ['/'] := by
  unfold joinPrefix
  by_cases hs : cleanStack (isRooted d) d = []
  · cases hr : isRooted d with
    | true =>
      rw [hr] at hs
      exact Or.inr ⟨[], by simp [hs]⟩
    | false =>
      rw [hr] at hs
      exact Or.inl (by simp [hs])
  · exact Or.inr ⟨Clean d, by simp [hs]⟩

theorem Clean_joinPrefix (d : Str) : Clean (joinPrefix d) = Clean d := by
  unfold joinPrefix
  by_cases hs : cleanStack (isRooted d) d = []
  · cases hr : isRooted d with
    | true =>
      rw [hr] at hs
      rw [Clean_eq d, hr, hs]
      rfl
    | false =>
      rw [hr] at hs
      rw [Clean_eq d, hr, hs]
      rfl
  · rw [if_neg hs, Clean_eq (Clean d ++ ['/']), isRooted_append _ _ (Clean_ne_nil d),
      isRooted_Clean, cleanStack_append_sep, cleanStack_Clean, Clean_eq d]
    rfl

theorem joinPrefix_Clean (d : Str) : joinPrefix (Clean d) = joinPrefix d := by
  unfold joinPrefix
  rw [isRooted_Clean, cleanStack_Clean, Clean_Clean]

theorem Base_append_name (front n : Str) (hfront : front = [] ∨ ∃ q, front = q ++ ['/'])
    (h1 : n ≠ []) (h4 : ∀ c ∈ n, IsPathSeparator c = false) : Base (front ++ n) = n := by
  have hrev : (front ++ n).reverse = n.reverse ++ front.reverse := by simp
  have hdrop : (front ++ n).reverse.dropWhile IsPathSeparator = (front ++ n).reverse := by
    rw [hrev]
    cases hn : n.reverse with
    | nil => exact absurd (by simpa using hn) h1
    | cons c cs =>
      have hc : IsPathSeparator c = false :=
        h4 c (List.mem_reverse.1 (by rw [hn]; exact List.mem_cons_self _ _))
      simp [List.dropWhile_cons, hc]
  have hlast : lastElement (front ++ n) = n := by
    unfold lastElement
    rw [hrev, List.takeWhile_append_of_pos (by
      intro a ha
      simp [h4 a (List.mem_reverse.1 ha)])]
    rcases hfront with hf | ⟨q, hf⟩
    · simp [hf]
    · simp [hf, IsPathSeparator]
  have hne : front ++ n ≠ [] := by simp [h1]
  unfold Base
  rw [if_neg hne, hdrop, List.reverse_reverse, hlast, if_neg h1]

theorem Dir_append_name (front n : Str) (hfront : front = [] ∨ ∃ q, front = q ++ ['/'])
    (h4 : ∀ c ∈ n, IsPathSeparator c = false) : Dir (front ++ n) = Clean front := by
  have hrev : (front ++ n).reverse = n.reverse ++ front.reverse := by simp
  unfold Dir
  rw [hrev, List.dropWhile_append_of_pos (by
    intro a ha
    simp [h4 a (List.mem_reverse.1 ha)])]
  rcases hfront with hf | ⟨q, hf⟩
  · simp [hf]
  · simp [hf, IsPathSeparator]

theorem ExtScan_append (rest : List Char) :
    ∀ (a acc : List Char), (∀ c ∈ a, IsPathSeparator c = false ∧ c ≠ '.') →
      ExtScan (a ++ '.' :: rest) acc = '.' :: (a.reverse ++ acc) := by
  intro a
  induction a with
  | nil =>
    intro acc _
    simp [ExtScan, IsPathSeparator]
  | cons c a ih =>
    intro acc h
    obtain ⟨h1, h2⟩ := h c (List.mem_cons_self _ _)
    have := ih (c :: acc) (fun x hx => h x (List.mem_cons_of_mem _ hx))
    simp [ExtScan, h1, h2, this]

/-- The extension of a path that ends in a dot followed by `e`, when `e` has neither dot nor
separator. -/
theorem Ext_append_dot (q e : Str) (h : ∀ c ∈ e, IsPathSeparator c = false ∧ c ≠ '.') :
    Ext (q ++ '.' :: e) = '.' :: e := by
  unfold Ext
  have hrev : (q ++ '.' :: e).reverse = e.reverse ++ '.' :: q.reverse := by simp
  rw [hrev, ExtScan_append _ _ _ (fun c hc => h c (List.mem_reverse.1 hc))]
  simp

theorem ExtScan_sepFree :
    ∀ (l acc : List Char), (∀ c ∈ acc, IsPathSeparator c = false) →
      ∀ c ∈ ExtScan l acc, IsPathSeparator c = false := by
  intro l
  induction l with
  | nil => intro acc _ c hc; simp [ExtScan] at hc
  | cons x l ih =>
    intro acc hacc c hc
    by_cases hx : IsPathSeparator x = true
    · simp [ExtScan, hx] at hc
    · have hxf : IsPathSeparator x = false := by simpa using hx
      by_cases hd : x = '.'
      · have hc2 : c ∈ '.' :: acc := by simpa [ExtScan, hxf, hd, IsPathSeparator] using hc
        rcases List.mem_cons.1 hc2 with h | h
        · rw [h]
          rfl
        · exact hacc c h
      · simp only [ExtScan, hxf, hd, Bool.false_eq_true, if_false] at hc
        refine ih (x :: acc) ?_ c hc
        intro y hy
        rcases List.mem_cons.1 hy with rfl | hy
        · exact hxf
        · exact hacc y hy

theorem Ext_sepFree (p : Str) : ∀ c ∈ Ext p, IsPathSeparator c = false :=
  ExtScan_sepFree _ [] (by simp)

theorem ExtScan_takeWhile :
    ∀ (l acc : List Char),
      ExtScan (l.takeWhile (fun c => !IsPathSeparator c)) acc = ExtScan l acc := by
  intro l
  induction l with
  | nil => intro acc; rfl
  | cons x l ih =>
    intro acc
    by_cases hx : IsPathSeparator x = true
    · simp [ExtScan, hx]
    · have hxf : IsPathSeparator x = false := by simpa using hx
      by_cases hd : x = '.'
      · simp [ExtScan, hxf, hd, List.takeWhile_cons]
      · simp [ExtScan, hxf, hd, List.takeWhile_cons, ih]

/-- The extension of a path is the extension of its last element. -/
theorem Ext_lastElement (p : Str) : Ext (lastElement p) = Ext p := by
  unfold Ext lastElement
  rw [List.reverse_reverse, ExtScan_takeWhile]

theorem TrimSuffix_append (x suffix : Str) : TrimSuffix (x ++ suffix) suffix = x := by
  have h : HasSuffix (x ++ suffix) suffix = true := by
    simp [HasSuffix]
  simp [TrimSuffix, h]

theorem Dir_Join_pair (d n : Str) (h : isEntryName n = true) : Dir (Join [d, n]) = Clean d := by
  obtain ⟨_, _, _, h4⟩ := (isEntryName_iff n).1 h
  rw [Join_pair d n h, Dir_append_name _ _ (joinPrefix_shape d) h4, Clean_joinPrefix]

theorem Base_Join_pair (d n : Str) (h : isEntryName n = true) : Base (Join [d, n]) = n := by
  obtain ⟨h1, _, _, h4⟩ := (isEntryName_iff n).1 h
  rw [Join_pair d n h, Base_append_name _ _ (joinPrefix_shape d) h1 h4]

theorem Join_Dir_Join (d n m : Str) (hn : isEntryName n = true) (hm : isEntryName m = true) :
    Join [Dir (Join [d, n]), m] = Join [d, m] := by
  rw [Dir_Join_pair d n hn, Join_pair _ m hm, Join_pair d m hm, joinPrefix_Clean]

/-! ## processor.go -/

theorem traced_eq {σ : Type} (dl : Str → σ → Except GoError Str × σ) (url : Str) (s : σ)
    (log : List Call) :
    traced dl url (s, log) = ((dl url s).1, ((dl url s).2, log ++ [(url, (dl url s).1)])) := rfl

/-- What the loop does on a run in which every call of the downloader succeeds. -/
theorem ProcessImagesLoop_traced_ok {σ : Type} (IsImageURL : Str → Bool)
    (dl : Str → σ → Except GoError Str × σ) :
    ∀ (images acc : List Str) (s : σ) (log : List Call),
      (∀ c ∈ (ProcessImagesLoop IsImageURL (traced dl) images acc (s, log)).2.2,
        ∃ p, c.2 = .ok p) →
      ∃ out calls,
        (ProcessImagesLoop IsImageURL (traced dl) images acc (s, log)).1 = .ok (acc ++ out) ∧
        (ProcessImagesLoop IsImageURL (traced dl) images acc (s, log)).2.2 = log ++ calls ∧
        out.length = images.length ∧
        calls.map Prod.fst = images.filter IsImageURL ∧
        ∀ (i : Nat) (image : Str), images[i]? = some image →
          (IsImageURL image = false → out[i]? = some image) ∧
          (IsImageURL image = true → ∃ p, out[i]? = some p ∧
            calls[(images.take i).countP IsImageURL]? = some (image, .ok p)) := by
  intro images
  induction images with
  | nil =>
    intro acc s log _
    exact ⟨[], [], by simp [ProcessImagesLoop], by simp [ProcessImagesLoop], rfl, rfl,
      by intro i image h; simp at h⟩
  | cons image rest ih =>
    intro acc s log hok
    by_cases hurl : IsImageURL image = true
    · rcases hdl : dl image s with ⟨r, s1⟩
      cases r with
      | error err =>
        exfalso
        have hmem : ((image, Except.error err) : Call) ∈
            (ProcessImagesLoop IsImageURL (traced dl) (image :: rest) acc (s, log)).2.2 := by
          simp [ProcessImagesLoop, hurl, traced_eq, hdl]
        obtain ⟨p, hp⟩ := hok _ hmem
        simp at hp
      | ok localPath =>
        have hstep : ProcessImagesLoop IsImageURL (traced dl) (image :: rest) acc (s, log) =
            ProcessImagesLoop IsImageURL (traced dl) rest (acc ++ [localPath])
              (s1, log ++ [(image, .ok localPath)]) := by
          simp [ProcessImagesLoop, hurl, traced_eq, hdl]
        rw [hstep] at hok ⊢
        obtain ⟨out, calls, h1, h2, h3, h4, h5⟩ := ih _ _ _ hok
        refine ⟨localPath :: out, (image, .ok localPath) :: calls, ?_, ?_, ?_, ?_, ?_⟩
        · simpa using h1
        · simpa using h2
        · simp [h3]
        · simp [hurl, h4]
        · intro i img hi
          cases i with
          | zero =>
            simp at hi
            subst hi
            simp [hurl]
          | succ j =>
            simp at hi
            have := h5 j img hi
            simpa [List.countP_cons, hurl] using this
    · have hurl2 : IsImageURL image = false := by simpa using hurl
      have hstep : ProcessImagesLoop IsImageURL (traced dl) (image :: rest) acc (s, log) =
          ProcessImagesLoop IsImageURL (traced dl) rest (acc ++ [image]) (s, log) := by
        simp [ProcessImagesLoop, hurl2]
      rw [hstep] at hok ⊢
      obtain ⟨out, calls, h1, h2, h3, h4, h5⟩ := ih _ _ _ hok
      refine ⟨image :: out, calls, ?_, h2, ?_, ?_, ?_⟩
      · simpa using h1
      · simp [h3]
      · simp [hurl2, h4]
      · intro i img hi
        cases i with
        | zero =>
          simp at hi
          subst hi
          simp [hurl2]
        | succ j =>
          simp at hi
          have := h5 j img hi
          simpa [List.countP_cons, hurl2] using this

theorem runDownloads_cons {σ : Type} (dl : Str → σ → Except GoError Str × σ) (url : Str)
    (urls : List Str) (s : σ) :
    runDownloads dl (url :: urls) s = runDownloads dl urls (dl url s).2 := rfl

/-- Every run of the loop: it either goes through all entries, or stops at the first entry
whose download fails. -/
theorem ProcessImagesLoop_traced_run {σ : Type} (IsImageURL : Str → Bool)
    (dl : Str → σ → Except GoError Str × σ) :
    ∀ (images acc : List Str) (s : σ) (log : List Call),
      ∃ calls,
        (ProcessImagesLoop IsImageURL (traced dl) images acc (s, log)).2 =
          (runDownloads dl (calls.map Prod.fst) s, log ++ calls) ∧
        ((∃ out, (ProcessImagesLoop IsImageURL (traced dl) images acc (s, log)).1 =
              .ok (acc ++ out) ∧ out.length = images.length ∧
              calls.map Prod.fst = images.filter IsImageURL ∧
              ∀ c ∈ calls, ∃ p, c.2 = .ok p) ∨
         (∃ before u after err callsBefore,
              images = before ++ u :: after ∧ IsImageURL u = true ∧
              (ProcessImagesLoop IsImageURL (traced dl) images acc (s, log)).1 =
                .error (.wrap ("下载图片失败 ".toList ++ u) err) ∧
              calls = callsBefore ++ [(u, .error err)] ∧
              callsBefore.map Prod.fst = before.filter IsImageURL ∧
              (∀ c ∈ callsBefore, ∃ p, c.2 = .ok p) ∧
              (dl u (runDownloads dl (before.filter IsImageURL) s)).1 = .error err)) := by
  intro images
  induction images with
  | nil =>
    intro acc s log
    exact ⟨[], by simp [ProcessImagesLoop, runDownloads],
      Or.inl ⟨[], by simp [ProcessImagesLoop], rfl, rfl, by simp⟩⟩
  | cons image rest ih =>
    intro acc s log
    by_cases hurl : IsImageURL image = true
    · rcases hdl : dl image s with ⟨r, s1⟩
      cases r with
      | error err =>
        refine ⟨[(image, .error err)], ?_, Or.inr ⟨[], image, rest, err, [], ?_⟩⟩
        · simp [ProcessImagesLoop, hurl, traced_eq, hdl, runDownloads]
        · simp [ProcessImagesLoop, hurl, traced_eq, hdl, runDownloads]
      | ok localPath =>
        have hstep : ProcessImagesLoop IsImageURL (traced dl) (image :: rest) acc (s, log) =
            ProcessImagesLoop IsImageURL (traced dl) rest (acc ++ [localPath])
              (s1, log ++ [(image, .ok localPath)]) := by
          simp [ProcessImagesLoop, hurl, traced_eq, hdl]
        rw [hstep]
        obtain ⟨calls, hst, hres⟩ := ih (acc ++ [localPath]) s1 (log ++ [(image, .ok localPath)])
        refine ⟨(image, .ok localPath) :: calls, ?_, ?_⟩
        · rw [hst]
          simp [runDownloads_cons, hdl]
        · rcases hres with ⟨out, h1, h2, h3, h4⟩ | ⟨before, u, after, err, cb, h1, h2, h3, h4, h5, h6, h7⟩
          · refine Or.inl ⟨localPath :: out, by simpa using h1, by simp [h2], by simp [hurl, h3], ?_⟩
            intro c hc
            rcases List.mem_cons.1 hc with rfl | hc
            · exact ⟨localPath, rfl⟩
            · exact h4 c hc
          · refine Or.inr ⟨image :: before, u, after, err, (image, .ok localPath) :: cb,
              by simp [h1], h2, h3, by simp [h4], by simp [hurl, h5], ?_, ?_⟩
            · intro c hc
              rcases List.mem_cons.1 hc with rfl | hc
              · exact ⟨localPath, rfl⟩
              · exact h6 c hc
            · simpa [List.filter_cons, hurl, runDownloads_cons, hdl] using h7
    · have hurl2 : IsImageURL image = false := by simpa using hurl
      have hstep : ProcessImagesLoop IsImageURL (traced dl) (image :: rest) acc (s, log) =
          ProcessImagesLoop IsImageURL (traced dl) rest (acc ++ [image]) (s, log) := by
        simp [ProcessImagesLoop, hurl2]
      rw [hstep]
      obtain ⟨calls, hst, hres⟩ := ih (acc ++ [image]) s log
      refine ⟨calls, hst, ?_⟩
      rcases hres with ⟨out, h1, h2, h3, h4⟩ | ⟨before, u, after, err, cb, h1, h2, h3, h4, h5, h6, h7⟩
      · exact Or.inl ⟨image :: out, by simpa using h1, by simp [h2], by simp [hurl2, h3], h4⟩
      · exact Or.inr ⟨image :: before, u, after, err, cb, by simp [h1], h2, h3, h4,
          by simp [hurl2, h5], h6, by simpa [List.filter_cons, hurl2] using h7⟩

theorem ProcessImages_snd {σ : Type} (IsImageURL : Str → Bool)
    (dl : Str → σ → Except GoError Str × σ) (images : List Str) (s : σ) :
    (ProcessImages IsImageURL dl images s).2 = (ProcessImagesLoop IsImageURL dl images [] s).2 := by
  unfold ProcessImages
  rcases ProcessImagesLoop IsImageURL dl images [] s with ⟨r, s1⟩
  cases r with
  | error err => rfl
  | ok localPaths => by_cases h : localPaths.length = 0 <;> simp [h]

theorem ProcessImages_fst {σ : Type} (IsImageURL : Str → Bool)
    (dl : Str → σ → Except GoError Str × σ) (images : List Str) (s : σ) :
    (ProcessImages IsImageURL dl images s).1 =
      match (ProcessImagesLoop IsImageURL dl images [] s).1 with
      | .error err => .error err
      | .ok localPaths =>
        if localPaths.length = 0 then .error (.new "no valid images found".toList)
        else .ok localPaths := by
  unfold ProcessImages
  rcases ProcessImagesLoop IsImageURL dl images [] s with ⟨r, s1⟩
  cases r with
  | error err => rfl
  | ok localPaths => by_cases h : localPaths.length = 0 <;> simp [h]

/-- C1. Order preservation in `ProcessImages`: on a non-empty list for which every call of the
downloader made during the run succeeds, the result is a list `out` of the length of the input;
the references the downloader was called on are exactly the URL entries of the input, in input
order (so once per URL entry and never for a local path); a local path at index `i` is returned
unchanged at index `i`; and for a URL entry at index `i`, `out[i]` is the path the downloader
returned in its call for that entry. -/
theorem ProcessImages_order {σ : Type} (IsImageURL : Str → Bool)
    (dl : Str → σ → Except GoError Str × σ) (images : List Str) (s : σ)
    (hne : images ≠ [])
    (hok : ∀ c ∈ (ProcessImages IsImageURL (traced dl) images (s, [])).2.2, ∃ p, c.2 = .ok p) :
    ∃ out,
      (ProcessImages IsImageURL (traced dl) images (s, [])).1 = .ok out ∧
      out.length = images.length ∧
      ((ProcessImages IsImageURL (traced dl) images (s, [])).2.2).map Prod.fst =
        images.filter IsImageURL ∧
      ∀ (i : Nat) (image : Str), images[i]? = some image →
        (IsImageURL image = false → out[i]? = some image) ∧
        (IsImageURL image = true → ∃ p, out[i]? = some p ∧
          ((ProcessImages IsImageURL (traced dl) images (s, [])).2.2)[
            (images.take i).countP IsImageURL]? = some (image, .ok p)) := by
  rw [ProcessImages_snd] at hok ⊢
  obtain ⟨out, calls, h1, h2, h3, h4, h5⟩ :=
    ProcessImagesLoop_traced_ok IsImageURL dl images [] s [] hok
  have hlen : out.length ≠ 0 := by
    rw [h3]
    exact fun h => hne (List.length_eq_zero.1 h)
  refine ⟨out, ?_, h3, ?_, ?_⟩
  · rw [ProcessImages_fst, h1]
    simp [hlen]
  · rw [h2]
    simpa using h4
  · rw [h2]
    simpa using h5

theorem ProcessImages_order_witness :
    ∃ out,
      (ProcessImages (IsVideoURL asciiToLower) (traced sampleDownload)
        ["a.png".toList, "http://ok/b.png".toList, "c.png".toList] (0, [])).1 = .ok out ∧
      out.length = 3 := by
  obtain ⟨out, h1, h2, _⟩ := ProcessImages_order (IsVideoURL asciiToLower) sampleDownload
    ["a.png".toList, "http://ok/b.png".toList, "c.png".toList] 0 (by decide)
    (by
      have hlog : (ProcessImages (IsVideoURL asciiToLower) (traced sampleDownload)
          ["a.png".toList, "http://ok/b.png".toList, "c.png".toList] (0, [])).2.2 =
          [("http://ok/b.png".toList, .ok "/images/b.png".toList)] := rfl
      intro c hc
      rw [hlog] at hc
      exact ⟨"/images/b.png".toList, by rw [List.mem_singleton.1 hc]⟩)
  exact ⟨out, h1, h2⟩

/-- The loop with any downloader: all entries are appended, or a URL entry's download failed. -/
theorem ProcessImagesLoop_cases {σ : Type} (IsImageURL : Str → Bool)
    (dl : Str → σ → Except GoError Str × σ) :
    ∀ (images acc : List Str) (s : σ),
      (∃ out, (ProcessImagesLoop IsImageURL dl images acc s).1 = .ok (acc ++ out) ∧
        out.length = images.length) ∨
      (∃ image err, image ∈ images ∧ IsImageURL image = true ∧
        (ProcessImagesLoop IsImageURL dl images acc s).1 =
          .error (.wrap ("下载图片失败 ".toList ++ image) err)) := by
  intro images
  induction images with
  | nil =>
    intro acc s
    exact Or.inl ⟨[], by simp [ProcessImagesLoop], rfl⟩
  | cons image rest ih =>
    intro acc s
    by_cases hurl : IsImageURL image = true
    · rcases hdl : dl image s with ⟨r, s1⟩
      cases r with
      | error err =>
        exact Or.inr ⟨image, err, by simp, hurl, by simp [ProcessImagesLoop, hurl, hdl]⟩
      | ok localPath =>
        have hstep : ProcessImagesLoop IsImageURL dl (image :: rest) acc s =
            ProcessImagesLoop IsImageURL dl rest (acc ++ [localPath]) s1 := by
          simp [ProcessImagesLoop, hurl, hdl]
        rw [hstep]
        rcases ih (acc ++ [localPath]) s1 with ⟨out, h1, h2⟩ | ⟨img, err, h1, h2, h3⟩
        · exact Or.inl ⟨localPath :: out, by simpa using h1, by simp [h2]⟩
        · exact Or.inr ⟨img, err, List.mem_cons_of_mem _ h1, h2, h3⟩
    · have hurl2 : IsImageURL image = false := by simpa using hurl
      have hstep : ProcessImagesLoop IsImageURL dl (image :: rest) acc s =
          ProcessImagesLoop IsImageURL dl rest (acc ++ [image]) s := by
        simp [ProcessImagesLoop, hurl2]
      rw [hstep]
      rcases ih (acc ++ [image]) s with ⟨out, h1, h2⟩ | ⟨img, err, h1, h2, h3⟩
      · exact Or.inl ⟨image :: out, by simpa using h1, by simp [h2]⟩
      · exact Or.inr ⟨img, err, List.mem_cons_of_mem _ h1, h2, h3⟩

/-- C9. Reachability of `NoValidImages`: `ProcessImages` returns the error
"no valid images found" exactly when the input list is empty; on a non-empty list it either
fails with the wrapped error of a URL entry's download, or succeeds with a non-empty list. -/
theorem ProcessImages_noValidImages {σ : Type} (IsImageURL : Str → Bool)
    (dl : Str → σ → Except GoError Str × σ) (images : List Str) (s : σ) :
    ((ProcessImages IsImageURL dl images s).1 = .error (.new "no valid images found".toList) ↔
      images = []) ∧
    (images ≠ [] →
      (∃ image err, image ∈ images ∧ IsImageURL image = true ∧
        (ProcessImages IsImageURL dl images s).1 =
          .error (.wrap ("下载图片失败 ".toList ++ image) err)) ∨
      (∃ out, (ProcessImages IsImageURL dl images s).1 = .ok out ∧ out ≠ [])) := by
  have key : images ≠ [] →
      (∃ image err, image ∈ images ∧ IsImageURL image = true ∧
        (ProcessImages IsImageURL dl images s).1 =
          .error (.wrap ("下载图片失败 ".toList ++ image) err)) ∨
      (∃ out, (ProcessImages IsImageURL dl images s).1 = .ok out ∧ out ≠ []) := by
    intro hne
    rcases ProcessImagesLoop_cases IsImageURL dl images [] s with ⟨out, h1, h2⟩ | ⟨img, err, h1, h2, h3⟩
    · have hlen : out.length ≠ 0 := by
        rw [h2]
        exact fun h => hne (List.length_eq_zero.1 h)
      refine Or.inr ⟨out, ?_, fun h => hlen (by simp [h])⟩
      rw [ProcessImages_fst, h1]
      simp [hlen]
    · refine Or.inl ⟨img, err, h1, h2, ?_⟩
      rw [ProcessImages_fst, h3]
  refine ⟨⟨fun h => ?_, fun h => ?_⟩, key⟩
  · by_contra hne
    rcases key hne with ⟨img, err, _, _, h3⟩ | ⟨out, h1, _⟩
    · rw [h3] at h
      simp at h
    · rw [h1] at h
      simp at h
  · subst h
    rfl

/-- C2. Fail-fast in `ProcessImages`: if some call of the downloader made during the run fails,
the input splits as `before ++ u :: after` where every download for `before` succeeded and the
download of the URL entry `u` failed with `err`; the call returns no list but the error that
wraps `err` and names `u`; the downloader was called on the URL entries of `before` and on `u`
and on nothing in `after`; and the final state is the one these calls left, nothing else having
been done to it (no file of an earlier entry is deleted by `ProcessImages`). -/
theorem ProcessImages_fail_fast {σ : Type} (IsImageURL : Str → Bool)
    (dl : Str → σ → Except GoError Str × σ) (images : List Str) (s : σ)
    (hfail : ∃ c ∈ (ProcessImages IsImageURL (traced dl) images (s, [])).2.2,
      ∃ e, c.2 = .error e) :
    ∃ before u after err callsBefore,
      images = before ++ u :: after ∧ IsImageURL u = true ∧
      (∀ c ∈ callsBefore, ∃ p, c.2 = .ok p) ∧
      callsBefore.map Prod.fst = before.filter IsImageURL ∧
      (dl u (runDownloads dl (before.filter IsImageURL) s)).1 = .error err ∧
      ProcessImages IsImageURL (traced dl) images (s, []) =
        (.error (.wrap ("下载图片失败 ".toList ++ u) err),
          (runDownloads dl (before.filter IsImageURL ++ [u]) s,
            callsBefore ++ [(u, .error err)])) ∧
      (GoError.wrap ("下载图片失败 ".toList ++ u) err).Unwrap = some err ∧
      (GoError.wrap ("下载图片失败 ".toList ++ u) err).Error =
        "下载图片失败 ".toList ++ u ++ ": ".toList ++ err.Error := by
  rw [ProcessImages_snd] at hfail
  obtain ⟨calls, hst, hres⟩ := ProcessImagesLoop_traced_run IsImageURL dl images [] s []
  rcases hres with ⟨out, _, _, _, h4⟩ | ⟨before, u, after, err, cb, h1, h2, h3, h4, h5, h6, h7⟩
  · exfalso
    obtain ⟨c, hc, e, he⟩ := hfail
    rw [hst] at hc
    obtain ⟨p, hp⟩ := h4 c (by simpa using hc)
    rw [hp] at he
    simp at he
  · refine ⟨before, u, after, err, cb, h1, h2, h6, h5, h7, ?_, rfl, rfl⟩
    apply Prod.ext
    · rw [ProcessImages_fst, h3]
    · rw [ProcessImages_snd, hst, h4]
      simp [h5]

theorem ProcessImages_fail_fast_witness :
    ∃ before u after err callsBefore,
      ["http://ok/a.png".toList, "http://no/b.png".toList, "http://ok/c.png".toList] =
        before ++ u :: after ∧
      ProcessImages (IsVideoURL asciiToLower) (traced sampleDownload)
        ["http://ok/a.png".toList, "http://no/b.png".toList, "http://ok/c.png".toList] (0, []) =
        (.error (.wrap ("下载图片失败 ".toList ++ u) err),
          (runDownloads sampleDownload (before.filter (IsVideoURL asciiToLower) ++ [u]) 0,
            callsBefore ++ [(u, .error err)])) := by
  obtain ⟨before, u, after, err, cb, h1, _, _, _, _, h6, _⟩ :=
    ProcessImages_fail_fast (IsVideoURL asciiToLower) sampleDownload
      ["http://ok/a.png".toList, "http://no/b.png".toList, "http://ok/c.png".toList] 0
      ⟨("http://no/b.png".toList, .error (.new "status 404".toList)),
        (List.mem_cons_of_mem _ (List.mem_singleton.2 rfl) :
          (("http://no/b.png".toList, .error (.new "status 404".toList)) : Call) ∈
            [("http://ok/a.png".toList, .ok "/images/a.png".toList),
              ("http://no/b.png".toList, .error (.new "status 404".toList))]), _, rfl⟩
  exact ⟨before, u, after, err, cb, h1, h6⟩

/-- C3. Classification decides pass-through in `ProcessVideo`: `IsVideoURL r` holds exactly when
the lower-cased `r` starts with `http://` or `https://`; when it does not hold, `ProcessVideo`
returns `r` itself, changes nothing and makes no call of the downloader; when it holds, the
downloader is called once, on `r`, and `ProcessVideo` returns its path on success and its error
wrapped with `r` on failure. -/
theorem ProcessVideo_classification {σ : Type} (ToLower : Str → Str)
    (dl : Str → σ → Except GoError Str × σ) (r : Str) (s : σ) (log : List Call) :
    (IsVideoURL ToLower r = true ↔
      ("http://".toList <+: ToLower r ∨ "https://".toList <+: ToLower r)) ∧
    (IsVideoURL ToLower r = false →
      ProcessVideo ToLower (traced dl) r (s, log) = (.ok r, (s, log))) ∧
    (IsVideoURL ToLower r = true →
      (ProcessVideo ToLower (traced dl) r (s, log)).2 = ((dl r s).2, log ++ [(r, (dl r s).1)]) ∧
      (∀ p, (dl r s).1 = .ok p → (ProcessVideo ToLower (traced dl) r (s, log)).1 = .ok p) ∧
      (∀ e, (dl r s).1 = .error e →
        (ProcessVideo ToLower (traced dl) r (s, log)).1 =
          .error (.wrap ("下载视频失败 ".toList ++ r) e) ∧
        (GoError.wrap ("下载视频失败 ".toList ++ r) e).Error =
          "下载视频失败 ".toList ++ r ++ ": ".toList ++ e.Error)) := by
  refine ⟨?_, ?_, ?_⟩
  · simp [IsVideoURL, HasPrefix, List.isPrefixOf_iff_prefix]
  · intro h
    simp [ProcessVideo, h]
  · intro h
    rcases hdl : dl r s with ⟨res, s1⟩
    cases res with
    | error err => simp [ProcessVideo, h, traced_eq, hdl, GoError.Error]
    | ok localPath => simp [ProcessVideo, h, traced_eq, hdl]

theorem ProcessVideo_classification_witness :
    ProcessVideo asciiToLower (traced sampleDownload) "/local/v.mp4".toList (0, []) =
        (.ok "/local/v.mp4".toList, (0, [])) ∧
      (ProcessVideo asciiToLower (traced sampleDownload) "http://ok/v.mp4".toList (0, [])).1 =
        .ok "/images/v.mp4".toList :=
  ⟨(ProcessVideo_classification asciiToLower sampleDownload "/local/v.mp4".toList 0 []).2.1
      (by decide),
    ((ProcessVideo_classification asciiToLower sampleDownload "http://ok/v.mp4".toList 0 []).2.2
      (by decide)).2.1 "/images/v.mp4".toList rfl⟩

theorem ProcessImages_noValidImages_witness :
    (ProcessImages (IsVideoURL asciiToLower) sampleDownload [] 0).1 =
        .error (.new "no valid images found".toList) ∧
      ((∃ image err, image ∈ ["a.png".toList] ∧ IsVideoURL asciiToLower image = true ∧
          (ProcessImages (IsVideoURL asciiToLower) sampleDownload ["a.png".toList] 0).1 =
            .error (.wrap ("下载图片失败 ".toList ++ image) err)) ∨
        ∃ out, (ProcessImages (IsVideoURL asciiToLower) sampleDownload ["a.png".toList] 0).1 =
          .ok out ∧ out ≠ []) :=
  ⟨(ProcessImages_noValidImages (IsVideoURL asciiToLower) sampleDownload [] 0).1.2 rfl,
    (ProcessImages_noValidImages (IsVideoURL asciiToLower) sampleDownload ["a.png".toList] 0).2
      (by decide)⟩

/-! ## The file system -/

theorem FS.lookup_erase (fs : FS) (name p : Str) :
    FS.lookup (FS.erase fs name) p = if p = name then none else FS.lookup fs p := by
  induction fs with
  | nil => simp [FS.erase, FS.lookup]
  | cons e rest ih =>
    rcases e with ⟨q, node⟩
    by_cases hq : q = name
    · subst hq
      have h1 : FS.erase ((q, node) :: rest) q = FS.erase rest q := by simp [FS.erase]
      rw [h1, ih]
      by_cases hp : p = q
      · simp [hp]
      · have hqp : ¬ q = p := fun h => hp h.symm
        simp [hp, hqp, FS.lookup]
    · have h1 : FS.erase ((q, node) :: rest) name = (q, node) :: FS.erase rest name := by
        simp [FS.erase, hq]
      rw [h1]
      by_cases hp : p = name
      · subst hp
        simp [FS.lookup, hq, ih]
      · by_cases hqp : q = p
        · simp [FS.lookup, hqp, hp]
        · simp [FS.lookup, hqp, hp, ih]

theorem FS.lookup_set (fs : FS) (name p : Str) (node : Node) :
    FS.lookup (FS.set fs name node) p = if p = name then some node else FS.lookup fs p := by
  by_cases hp : p = name
  · simp [FS.set, FS.lookup, hp]
  · have hnp : ¬ name = p := fun h => hp h.symm
    simp [FS.set, FS.lookup, hp, hnp, FS.lookup_erase]

/-! ## video.go: failures of `DownloadVideo` and `SaveUploadedVideo` -/

/-- C5. HTTP status failure in `DownloadVideo`: for a valid URL whose response has a status code
outside 200..299, `DownloadVideo` fails with the error "download failed with status: <code>",
whose message contains the decimal status code, and the file system is left as it was. -/
theorem DownloadVideo_status_failure (env : Env) (d : VideoDownloader) (videoURL : Str)
    (resp : Response) (fs : FS)
    (hvalid : isValidVideoURL env videoURL = true)
    (hget : env.Get videoURL = .ok resp)
    (hstatus : ¬ (200 ≤ resp.StatusCode ∧ resp.StatusCode ≤ 299)) :
    DownloadVideo env d videoURL fs =
      (.error (.new ("download failed with status: ".toList ++ fmtInt resp.StatusCode)), fs) ∧
    fmtInt resp.StatusCode <:+:
      (GoError.new ("download failed with status: ".toList ++ fmtInt resp.StatusCode)).Error := by
  have hne : resp.StatusCode ≠ StatusOK := by
    intro h
    apply hstatus
    rw [h]
    decide
  constructor
  · simp [-String.toList, DownloadVideo, hvalid, hget, hne]
  · exact ⟨"download failed with status: ".toList, [], by simp [GoError.Error]⟩

theorem DownloadVideo_status_failure_witness :
    DownloadVideo (sampleEnv ⟨404, ⟨[1, 2, 3], none⟩⟩ "mp4".toList) sampleDownloader
        "HTTP://host/v.mp4".toList sampleFS =
      (.error (.new "download failed with status: 404".toList), sampleFS) :=
  (DownloadVideo_status_failure (sampleEnv ⟨404, ⟨[1, 2, 3], none⟩⟩ "mp4".toList)
    sampleDownloader "HTTP://host/v.mp4".toList ⟨404, ⟨[1, 2, 3], none⟩⟩ sampleFS
    (by decide) rfl (by decide)).1

theorem validateAndRename_error (env : Env) (filePath : Str) (fs : FS) (e : GoError)
    (h : (validateAndRename env filePath fs).1 = .error e) :
    (validateAndRename env filePath fs).2 = fs := by
  unfold validateAndRename at h ⊢
  cases h1 : osOpen fs filePath with
  | error err => rfl
  | ok file =>
    cases h2 : fileRead file 8192 with
    | error err => simp only [h2]
    | ok head =>
      cases h3 : env.Match head with
      | error err => simp only [h2, h3]
      | ok kind =>
        by_cases h4 : env.IsVideo head = true
        · by_cases h5 : kind.Extension = []
          · simp only [h1, h2, h3, h4, h5, Bool.not_true, Bool.false_eq_true, if_false, ne_eq,
              not_true_eq_false] at h
            exact absurd h (by simp)
          · by_cases h6 : Join [Dir filePath,
                TrimSuffix (Base filePath) (Ext filePath) ++ ".".toList ++ kind.Extension] = filePath
            · simp only [h1, h2, h3, h4, h5, h6, Bool.not_true, Bool.false_eq_true, if_false, ne_eq,
                not_true_eq_false, not_false_eq_true, if_true] at h
              exact absurd h (by simp)
            · rcases h7 : osRename fs filePath (Join [Dir filePath,
                TrimSuffix (Base filePath) (Ext filePath) ++ ".".toList ++ kind.Extension])
                with ⟨r, fs1⟩
              cases r <;>
              · simp only [h1, h2, h3, h4, h5, h6, h7, Bool.not_true, Bool.false_eq_true, if_false,
                  ne_eq, not_true_eq_false, not_false_eq_true, if_true] at h
                exact absurd h (by simp)
        · have h4f : env.IsVideo head = false := by simpa using h4
          simp only [h2, h3, h4f, Bool.not_false, if_true]

/-- After a successful `os.Create` of `filePath`, a copy into it and `os.Remove`: if the
removal is not refused the path does not exist, and in any case every other path is as before
the creation. -/
theorem create_copy_remove (refuse : Str → Option GoError) (fs fs1 : FS) (filePath : Str)
    (src : Stream) (stamp : Time)
    (hcreate : osCreate fs filePath stamp = .ok fs1) :
    (refuse filePath = none →
      FS.lookup (osRemove refuse (ioCopy fs1 filePath src stamp).2 filePath).2 filePath = none) ∧
    ∀ p, p ≠ filePath →
      FS.lookup (osRemove refuse (ioCopy fs1 filePath src stamp).2 filePath).2 p =
        FS.lookup fs p := by
  have hfs1 : fs1 = FS.set fs filePath (.file ⟨[], stamp⟩) := by
    unfold osCreate at hcreate
    split at hcreate
    · simp at hcreate
    · simpa using hcreate.symm
  have hl1 : FS.lookup fs1 filePath = some (.file ⟨[], stamp⟩) := by
    rw [hfs1, FS.lookup_set]
    simp
  have hcopy : (ioCopy fs1 filePath src stamp).2 =
      FS.set fs1 filePath (.file ⟨[] ++ src.data, stamp⟩) := by
    simp [ioCopy, hl1]
  have hl2 : FS.lookup (ioCopy fs1 filePath src stamp).2 filePath =
      some (.file ⟨[] ++ src.data, stamp⟩) := by
    rw [hcopy, FS.lookup_set]
    simp
  constructor
  · intro href
    have hrem : (osRemove refuse (ioCopy fs1 filePath src stamp).2 filePath).2 =
        FS.erase (ioCopy fs1 filePath src stamp).2 filePath := by
      simp [osRemove, href, hl2]
    rw [hrem, FS.lookup_erase]
    simp
  · intro p hp
    cases href : refuse filePath with
    | some err =>
      have hrem : (osRemove refuse (ioCopy fs1 filePath src stamp).2 filePath).2 =
          (ioCopy fs1 filePath src stamp).2 := by
        simp [osRemove, href]
      rw [hrem, hcopy, FS.lookup_set, hfs1, FS.lookup_set]
      simp [hp]
    | none =>
      have hrem : (osRemove refuse (ioCopy fs1 filePath src stamp).2 filePath).2 =
          FS.erase (ioCopy fs1 filePath src stamp).2 filePath := by
        simp [osRemove, href, hl2]
      rw [hrem, FS.lookup_erase, hcopy, FS.lookup_set, hfs1, FS.lookup_set]
      simp [hp]

/-- C4, amended. No orphaned partial files: when `DownloadVideo` (first part) or
`SaveUploadedVideo` (second part) has created its destination file and then returns an error,
it has called `os.Remove` on the destination; if the system does not refuse that removal, the
destination path does not exist in the file system the call leaves; and, refused or not, every
other path names what it named before the call. -/
theorem no_orphaned_partial_files (env : Env) (d : VideoDownloader) (fs : FS) :
    (∀ (videoURL : Str) (resp : Response) (fs1 : FS) (e : GoError),
      isValidVideoURL env videoURL = true →
      env.Get videoURL = .ok resp →
      resp.StatusCode = StatusOK →
      osCreate fs (Join [d.savePath, generateFileName env.Sum256 env.Now videoURL "mp4".toList])
        env.Stamp = .ok fs1 →
      (DownloadVideo env d videoURL fs).1 = .error e →
      (env.RemoveErr
          (Join [d.savePath, generateFileName env.Sum256 env.Now videoURL "mp4".toList]) = none →
        FS.lookup (DownloadVideo env d videoURL fs).2
          (Join [d.savePath, generateFileName env.Sum256 env.Now videoURL "mp4".toList]) =
            none) ∧
      ∀ p, p ≠ Join [d.savePath, generateFileName env.Sum256 env.Now videoURL "mp4".toList] →
        FS.lookup (DownloadVideo env d videoURL fs).2 p = FS.lookup fs p) ∧
    (∀ (reader : Stream) (originalName : Str) (fs1 : FS) (e : GoError),
      osCreate fs (Join [d.savePath, uploadFileName env.Sum256 env.Now originalName])
        env.Stamp = .ok fs1 →
      (SaveUploadedVideo env d reader originalName fs).1 = .error e →
      (env.RemoveErr (Join [d.savePath, uploadFileName env.Sum256 env.Now originalName]) = none →
        FS.lookup (SaveUploadedVideo env d reader originalName fs).2
          (Join [d.savePath, uploadFileName env.Sum256 env.Now originalName]) = none) ∧
      ∀ p, p ≠ Join [d.savePath, uploadFileName env.Sum256 env.Now originalName] →
        FS.lookup (SaveUploadedVideo env d reader originalName fs).2 p = FS.lookup fs p) := by
  constructor
  · intro videoURL resp fs1 e hvalid hget hstatus hcreate herr
    have hrm := create_copy_remove env.RemoveErr fs fs1 _ resp.Body env.Stamp hcreate
    rcases hcopy : ioCopy fs1
      (Join [d.savePath, generateFileName env.Sum256 env.Now videoURL "mp4".toList])
      resp.Body env.Stamp with ⟨⟨written, cerr⟩, fs2⟩
    rw [hcopy] at hrm
    cases cerr with
    | some err =>
      have hval : DownloadVideo env d videoURL fs =
          (.error (.wrap "failed to save video".toList err), (osRemove env.RemoveErr fs2
            (Join [d.savePath, generateFileName env.Sum256 env.Now videoURL "mp4".toList])).2) := by
        simp [-String.toList, DownloadVideo, hvalid, hget, hstatus, hcreate, hcopy]
      rw [hval]
      exact hrm
    | none =>
      by_cases hw : written = 0
      · have hval : DownloadVideo env d videoURL fs =
            (.error (.new "downloaded video is empty".toList), (osRemove env.RemoveErr fs2
              (Join [d.savePath, generateFileName env.Sum256 env.Now videoURL "mp4".toList])).2) := by
          simp [-String.toList, DownloadVideo, hvalid, hget, hstatus, hcreate, hcopy, hw]
        rw [hval]
        exact hrm
      · rcases hv : validateAndRename env
          (Join [d.savePath, generateFileName env.Sum256 env.Now videoURL "mp4".toList]) fs2
          with ⟨r, fs3⟩
        cases r with
        | ok actualPath =>
          simp [-String.toList, DownloadVideo, hvalid, hget, hstatus, hcreate, hcopy, hw, hv] at herr
        | error err =>
          have hfs3 : fs3 = fs2 := by
            have := validateAndRename_error env _ fs2 err (by rw [hv])
            rw [hv] at this
            exact this
          have hval : DownloadVideo env d videoURL fs =
              (.error err, (osRemove env.RemoveErr fs2
                (Join [d.savePath, generateFileName env.Sum256 env.Now videoURL "mp4".toList])).2) := by
            simp [-String.toList, DownloadVideo, hvalid, hget, hstatus, hcreate, hcopy, hw, hv, hfs3]
          rw [hval]
          exact hrm
  · intro reader originalName fs1 e hcreate herr
    have hrm := create_copy_remove env.RemoveErr fs fs1 _ reader env.Stamp hcreate
    rcases hcopy : ioCopy fs1
      (Join [d.savePath, uploadFileName env.Sum256 env.Now originalName])
      reader env.Stamp with ⟨⟨written, cerr⟩, fs2⟩
    rw [hcopy] at hrm
    cases cerr with
    | some err =>
      have hval : SaveUploadedVideo env d reader originalName fs =
          (.error (.wrap "failed to save video".toList err), (osRemove env.RemoveErr fs2
            (Join [d.savePath, uploadFileName env.Sum256 env.Now originalName])).2) := by
        simp [-String.toList, SaveUploadedVideo, hcreate, hcopy]
      rw [hval]
      exact hrm
    | none =>
      by_cases hw : written = 0
      · have hval : SaveUploadedVideo env d reader originalName fs =
            (.error (.new "uploaded video is empty".toList), (osRemove env.RemoveErr fs2
              (Join [d.savePath, uploadFileName env.Sum256 env.Now originalName])).2) := by
          simp [-String.toList, SaveUploadedVideo, hcreate, hcopy, hw]
        rw [hval]
        exact hrm
      · simp [-String.toList, SaveUploadedVideo, hcreate, hcopy, hw] at herr

set_option maxRecDepth 8192 in
theorem no_orphaned_partial_files_witness :
    FS.lookup (DownloadVideo (sampleEnv ⟨200, ⟨[], none⟩⟩ "mp4".toList) sampleDownloader
        "http://host/v".toList sampleFS).2
      (Join [sampleDownloader.savePath, generateFileName
        (sampleEnv ⟨200, ⟨[], none⟩⟩ "mp4".toList).Sum256
        (sampleEnv ⟨200, ⟨[], none⟩⟩ "mp4".toList).Now "http://host/v".toList "mp4".toList]) = none ∧
    FS.lookup (SaveUploadedVideo (sampleEnv ⟨200, ⟨[], none⟩⟩ "mp4".toList) sampleDownloader
        ⟨[], none⟩ "clip.mov".toList sampleFS).2
      (Join [sampleDownloader.savePath, uploadFileName
        (sampleEnv ⟨200, ⟨[], none⟩⟩ "mp4".toList).Sum256
        (sampleEnv ⟨200, ⟨[], none⟩⟩ "mp4".toList).Now "clip.mov".toList]) = none :=
  ⟨((no_orphaned_partial_files (sampleEnv ⟨200, ⟨[], none⟩⟩ "mp4".toList) sampleDownloader
      sampleFS).1 "http://host/v".toList ⟨200, ⟨[], none⟩⟩ _
      (.new "downloaded video is empty".toList) (by decide) rfl rfl rfl rfl).1 rfl,
   ((no_orphaned_partial_files (sampleEnv ⟨200, ⟨[], none⟩⟩ "mp4".toList) sampleDownloader
      sampleFS).2 ⟨[], none⟩ "clip.mov".toList _
      (.new "uploaded video is empty".toList) rfl rfl).1 rfl⟩

set_option maxRecDepth 8192 in
/-- C4 as stated fails: on a system that refuses the removal, a download with an empty body
and an upload of an empty stream both return their error after creating the destination file,
which did not exist before the call and exists, empty, when the call returns. -/
theorem no_orphaned_partial_files_refused :
    FS.lookup sampleFS "/videos/video_abababababababab_1700000000.mp4".toList = none ∧
    (DownloadVideo (sampleEnvRefusing ⟨200, ⟨[], none⟩⟩ "mp4".toList) sampleDownloader
        "http://host/v".toList sampleFS).1 = .error (.new "downloaded video is empty".toList) ∧
    FS.lookup (DownloadVideo (sampleEnvRefusing ⟨200, ⟨[], none⟩⟩ "mp4".toList) sampleDownloader
        "http://host/v".toList sampleFS).2
      "/videos/video_abababababababab_1700000000.mp4".toList =
        some (.file ⟨[], 1700000000300000000⟩) ∧
    FS.lookup sampleFS "/videos/video_abababababababab_1700000000250000000.mov".toList = none ∧
    (SaveUploadedVideo (sampleEnvRefusing ⟨200, ⟨[], none⟩⟩ "mp4".toList) sampleDownloader
        ⟨[], none⟩ "clip.mov".toList sampleFS).1 = .error (.new "uploaded video is empty".toList) ∧
    FS.lookup (SaveUploadedVideo (sampleEnvRefusing ⟨200, ⟨[], none⟩⟩ "mp4".toList)
        sampleDownloader ⟨[], none⟩ "clip.mov".toList sampleFS).2
      "/videos/video_abababababababab_1700000000250000000.mov".toList =
        some (.file ⟨[], 1700000000300000000⟩) :=
  ⟨rfl, rfl, rfl, rfl, rfl, rfl⟩

/-! ## video.go: file names -/

theorem generateFileName_of_Unix_eq (Sum256 : Str → Digest) (t u : Time) (videoURL extension : Str)
    (h : Time.Unix t = Time.Unix u) :
    generateFileName Sum256 t videoURL extension = generateFileName Sum256 u videoURL extension := by
  simp only [generateFileName, h]

set_option maxRecDepth 8192 in
/-- C6, at a failing input. Two downloads of one URL at the instants 1700000000.0 s and
1700000000.5 s, which differ, get the same file name from `generateFileName`, whose time salt
is the whole number of seconds; and run one after the other, both downloads return the same
path, which after the second holds the second body only. -/
theorem generateFileName_same_second :
    (1700000000000000000 : Time) ≠ 1700000000500000000 ∧
    (∀ (Sum256 : Str → Digest) (videoURL extension : Str),
      generateFileName Sum256 1700000000000000000 videoURL extension =
        generateFileName Sum256 1700000000500000000 videoURL extension) ∧
    (DownloadVideo (sampleEnvAt 1700000000000000000 ⟨200, ⟨[1, 2, 3], none⟩⟩ "mp4".toList)
        sampleDownloader "http://host/v.mp4".toList sampleFS).1 =
      .ok "/videos/video_abababababababab_1700000000.mp4".toList ∧
    (DownloadVideo (sampleEnvAt 1700000000500000000 ⟨200, ⟨[9], none⟩⟩ "mp4".toList)
        sampleDownloader "http://host/v.mp4".toList
        (DownloadVideo (sampleEnvAt 1700000000000000000 ⟨200, ⟨[1, 2, 3], none⟩⟩ "mp4".toList)
          sampleDownloader "http://host/v.mp4".toList sampleFS).2).1 =
      .ok "/videos/video_abababababababab_1700000000.mp4".toList ∧
    FS.lookup
      (DownloadVideo (sampleEnvAt 1700000000500000000 ⟨200, ⟨[9], none⟩⟩ "mp4".toList)
        sampleDownloader "http://host/v.mp4".toList
        (DownloadVideo (sampleEnvAt 1700000000000000000 ⟨200, ⟨[1, 2, 3], none⟩⟩ "mp4".toList)
          sampleDownloader "http://host/v.mp4".toList sampleFS).2).2
      "/videos/video_abababababababab_1700000000.mp4".toList =
        some (.file ⟨[9], 1700000000300000000⟩) :=
  ⟨by decide, fun Sum256 videoURL extension =>
    generateFileName_of_Unix_eq Sum256 _ _ videoURL extension (by decide), rfl, rfl, rfl⟩

theorem digitChar_decimal (k : Nat) (h : k < 10) : Nat.digitChar k ∈ "0123456789".toList := by
  interval_cases k <;> decide

theorem digitChar_hex (k : Nat) (h : k < 16) : Nat.digitChar k ∈ "0123456789abcdef".toList := by
  interval_cases k <;> decide

theorem toDigitsCore_decimal :
    ∀ (fuel n : Nat) (ds : List Char), (∀ c ∈ ds, c ∈ "-0123456789".toList) →
      ∀ c ∈ Nat.toDigitsCore 10 fuel n ds, c ∈ "-0123456789".toList := by
  intro fuel
  induction fuel with
  | zero => intro n ds h c hc; exact h c (by simpa [Nat.toDigitsCore] using hc)
  | succ fuel ih =>
    intro n ds h c hc
    have hd : ∀ x ∈ Nat.digitChar (n % 10) :: ds, x ∈ "-0123456789".toList := by
      intro x hx
      rcases List.mem_cons.1 hx with rfl | hx
      · exact List.mem_cons_of_mem _ (digitChar_decimal _ (Nat.mod_lt _ (by decide)))
      · exact h x hx
    by_cases hz : n / 10 = 0
    · exact hd c (by simpa [Nat.toDigitsCore, hz] using hc)
    · exact ih (n / 10) _ hd c (by simpa [Nat.toDigitsCore, hz] using hc)

/-- `%d` prints decimal digits and at most a minus sign. -/
theorem fmtInt_chars (n : Int) : ∀ c ∈ fmtInt n, c ∈ "-0123456789".toList := by
  cases n with
  | ofNat n => exact toDigitsCore_decimal _ _ [] (by simp)
  | negSucc n =>
    intro c hc
    rcases List.mem_cons.1 hc with rfl | hc
    · decide
    · exact toDigitsCore_decimal _ _ [] (by simp) c hc

/-- `%x` prints lower-case hexadecimal digits, two for each byte. -/
theorem fmtHex_chars (bs : List Byte) :
    (fmtHex bs).length = 2 * bs.length ∧ ∀ c ∈ fmtHex bs, c ∈ "0123456789abcdef".toList := by
  induction bs with
  | nil => simp [fmtHex]
  | cons b bs ih =>
    constructor
    · simp [fmtHex, fmtHexByte, ih.1]
      omega
    · intro c hc
      simp only [fmtHex, fmtHexByte, List.cons_append, List.nil_append, List.mem_cons] at hc
      rcases hc with rfl | rfl | hc
      · exact digitChar_hex _ (by omega)
      · exact digitChar_hex _ (Nat.mod_lt _ (by decide))
      · exact ih.2 c hc

theorem shortHash_chars (h : Digest) :
    ((fmtHex h.bytes).take 16).length = 16 ∧
    ∀ c ∈ (fmtHex h.bytes).take 16, c ∈ "0123456789abcdef".toList := by
  constructor
  · rw [List.length_take, (fmtHex_chars h.bytes).1, h.size]
    rfl
  · intro c hc
    exact (fmtHex_chars h.bytes).2 c (List.mem_of_mem_take hc)

theorem hex_sepFree : ∀ c ∈ "0123456789abcdef".toList, IsPathSeparator c = false ∧ c ≠ '.' := by
  decide

theorem decimal_sepFree : ∀ c ∈ "-0123456789".toList, IsPathSeparator c = false ∧ c ≠ '.' := by
  decide

theorem video_sepFree : ∀ c ∈ "video_".toList, IsPathSeparator c = false := by
  decide

theorem underscore_sepFree : ∀ c ∈ "_".toList, IsPathSeparator c = false := by
  decide

theorem mp4_sepFree : ∀ c ∈ ".mp4".toList, IsPathSeparator c = false := by
  decide

/-- A name that starts with `video_` and goes on without separator is an entry name. -/
theorem isEntryName_video (rest : Str) (h : ∀ c ∈ rest, IsPathSeparator c = false) :
    isEntryName ("video_".toList ++ rest) = true := by
  rw [isEntryName_iff]
  refine ⟨by simp, by simp, by simp, ?_⟩
  intro c hc
  rcases List.mem_append.1 hc with hc | hc
  · exact video_sepFree c hc
  · exact h c hc

theorem uploadFileName_eq (Sum256 : Str → Digest) (now : Time) (originalName : Str) :
    uploadFileName Sum256 now originalName =
      "video_".toList ++
        ((fmtHex (Sum256 (originalName ++ "_".toList ++ fmtInt (Time.UnixNano now))).bytes).take 16
          ++ "_".toList ++ fmtInt (Time.UnixNano now) ++
          (if Ext originalName = [] then ".mp4".toList else Ext originalName)) := by
  simp [uploadFileName, List.append_assoc]

theorem uploadFileName_sepFree (Sum256 : Str → Digest) (now : Time) (originalName : Str) :
    ∀ c ∈ (fmtHex (Sum256 (originalName ++ "_".toList ++ fmtInt (Time.UnixNano now))).bytes).take 16
        ++ "_".toList ++ fmtInt (Time.UnixNano now) ++
        (if Ext originalName = [] then ".mp4".toList else Ext originalName),
      IsPathSeparator c = false := by
  intro c hc
  rcases List.mem_append.1 hc with hc | hc
  · rcases List.mem_append.1 hc with hc | hc
    · rcases List.mem_append.1 hc with hc | hc
      · exact (hex_sepFree c ((shortHash_chars _).2 c hc)).1
      · exact underscore_sepFree c hc
    · exact (decimal_sepFree c (fmtInt_chars _ c hc)).1
  · by_cases he : Ext originalName = []
    · rw [if_pos he] at hc
      exact mp4_sepFree c hc
    · rw [if_neg he] at hc
      exact Ext_sepFree originalName c hc

/-- C10. Upload names stay inside the save root: the file name `SaveUploadedVideo` builds is
`video_`, 16 lower-case hexadecimal characters, `_`, the decimal nanosecond timestamp, and the
extension of the last path element of `originalName`, or `.mp4` when that is empty; it contains
no `/`; and a path the call returns is that name joined to the save directory: its directory
is the (cleaned) save directory and its last element is the file name. -/
theorem SaveUploadedVideo_fileName (env : Env) (d : VideoDownloader) (reader : Stream)
    (originalName : Str) (fs : FS) :
    ∃ h ext,
      uploadFileName env.Sum256 env.Now originalName =
        "video_".toList ++ h ++ "_".toList ++ fmtInt (Time.UnixNano env.Now) ++ ext ∧
      h.length = 16 ∧ (∀ c ∈ h, c ∈ "0123456789abcdef".toList) ∧
      ext = (if Ext (lastElement originalName) = [] then ".mp4".toList
        else Ext (lastElement originalName)) ∧
      '/' ∉ uploadFileName env.Sum256 env.Now originalName ∧
      ∀ p, (SaveUploadedVideo env d reader originalName fs).1 = .ok p →
        p = Join [d.savePath, uploadFileName env.Sum256 env.Now originalName] ∧
        Dir p = Clean d.savePath ∧
        Base p = uploadFileName env.Sum256 env.Now originalName := by
  have hentry : isEntryName (uploadFileName env.Sum256 env.Now originalName) = true := by
    rw [uploadFileName_eq]
    exact isEntryName_video _ (uploadFileName_sepFree env.Sum256 env.Now originalName)
  refine ⟨(fmtHex (env.Sum256 (originalName ++ "_".toList ++
      fmtInt (Time.UnixNano env.Now))).bytes).take 16,
    (if Ext originalName = [] then ".mp4".toList else Ext originalName),
    ?_, (shortHash_chars _).1, (shortHash_chars _).2, ?_, ?_, ?_⟩
  · rw [uploadFileName_eq]
    simp only [List.append_assoc]
  · rw [Ext_lastElement]
  · intro hmem
    have := ((isEntryName_iff _).1 hentry).2.2.2 '/' hmem
    simp [IsPathSeparator] at this
  · intro p hp
    have hpath : p = Join [d.savePath, uploadFileName env.Sum256 env.Now originalName] := by
      unfold SaveUploadedVideo at hp
      cases hcreate : osCreate fs
          (Join [d.savePath, uploadFileName env.Sum256 env.Now originalName]) env.Stamp with
      | error err => simp [-String.toList, hcreate] at hp
      | ok fs1 =>
        rcases hcopy : ioCopy fs1
          (Join [d.savePath, uploadFileName env.Sum256 env.Now originalName])
          reader env.Stamp with ⟨⟨written, cerr⟩, fs2⟩
        cases cerr with
        | some err => simp [-String.toList, hcreate, hcopy] at hp
        | none =>
          by_cases hw : written = 0
          · simp [-String.toList, hcreate, hcopy, hw] at hp
          · simp [-String.toList, hcreate, hcopy, hw] at hp
            exact hp.symm
    rw [hpath]
    exact ⟨rfl, Dir_Join_pair _ _ hentry, Base_Join_pair _ _ hentry⟩

set_option maxRecDepth 8192 in
theorem SaveUploadedVideo_fileName_witness :
    Dir "/videos/video_abababababababab_1700000000250000000.mov".toList =
        Clean "/videos".toList ∧
      Base "/videos/video_abababababababab_1700000000250000000.mov".toList =
        uploadFileName (fun _ => sampleDigest) 1700000000250000000 "../clips/a.mov".toList := by
  obtain ⟨_, _, _, _, _, _, _, hp⟩ :=
    SaveUploadedVideo_fileName (sampleEnv ⟨200, ⟨[], none⟩⟩ "mp4".toList) sampleDownloader
      ⟨[1, 2], none⟩ "../clips/a.mov".toList sampleFS
  exact (hp "/videos/video_abababababababab_1700000000250000000.mov".toList rfl).2

theorem generateFileName_eq (Sum256 : Str → Digest) (now : Time) (videoURL extension : Str) :
    generateFileName Sum256 now videoURL extension =
      fileStem Sum256 now videoURL ++ '.' :: extension := by
  simp [generateFileName, fileStem, List.append_assoc]

theorem isEntryName_generateFileName (Sum256 : Str → Digest) (now : Time)
    (videoURL extension : Str) (h : ∀ c ∈ extension, IsPathSeparator c = false) :
    isEntryName (generateFileName Sum256 now videoURL extension) = true := by
  have heq : generateFileName Sum256 now videoURL extension =
      "video_".toList ++ ((fmtHex (Sum256 videoURL).bytes).take 16 ++ "_".toList ++
        fmtInt (Time.Unix now) ++ '.' :: extension) := by
    simp [generateFileName, List.append_assoc]
  rw [heq]
  apply isEntryName_video
  intro c hc
  rcases List.mem_append.1 hc with hc | hc
  · rcases List.mem_append.1 hc with hc | hc
    · rcases List.mem_append.1 hc with hc | hc
      · exact (hex_sepFree c ((shortHash_chars _).2 c hc)).1
      · exact underscore_sepFree c hc
    · exact (decimal_sepFree c (fmtInt_chars _ c hc)).1
  · rcases List.mem_cons.1 hc with rfl | hc
    · rfl
    · exact h c hc

theorem mp4_extension : ∀ c ∈ "mp4".toList, IsPathSeparator c = false ∧ c ≠ '.' := by
  decide

/-- The provisional path of a download: the save directory's prefix, then the file name. -/
theorem provisional_path (Sum256 : Str → Digest) (now : Time) (savePath videoURL extension : Str)
    (h : ∀ c ∈ extension, IsPathSeparator c = false) :
    Join [savePath, generateFileName Sum256 now videoURL extension] =
      joinPrefix savePath ++ fileStem Sum256 now videoURL ++ '.' :: extension := by
  rw [Join_pair _ _ (isEntryName_generateFileName Sum256 now videoURL extension h),
    generateFileName_eq, List.append_assoc]

/-- C7. Best-effort extension correction in `validateAndRename`, for the provisional path
`filePath` of a download (the save directory joined with `generateFileName url "mp4"`) that
names a file whose first 8192 bytes are sniffed as a video of non-empty extension `e` (a file
extension: no path separator in it). The provisional path has extension `.mp4`. If `e` is
`mp4`, the path is returned and the file system is unchanged. Otherwise the target `newPath`
is a different path, in the same directory, whose last element is the same base name with `e`
for extension, and the code calls `os.Rename` once, for `filePath` and `newPath`: if that
succeeds `newPath` is returned and names the file, which `filePath` no longer does; if that
fails the call still succeeds, returns `filePath`, and the file system is unchanged. -/
theorem validateAndRename_extension (env : Env) (d : VideoDownloader) (videoURL : Str) (fs : FS)
    (f : File) (kind : Kind)
    (hfile : FS.lookup fs
      (Join [d.savePath, generateFileName env.Sum256 env.Now videoURL "mp4".toList]) =
        some (.file f))
    (hmatch : env.Match (f.data.take 8192) = .ok kind)
    (hvideo : env.IsVideo (f.data.take 8192) = true)
    (hext : kind.Extension ≠ [])
    (hsep : ∀ c ∈ kind.Extension, IsPathSeparator c = false) :
    Ext (Join [d.savePath, generateFileName env.Sum256 env.Now videoURL "mp4".toList]) =
      ".mp4".toList ∧
    (kind.Extension = "mp4".toList →
      validateAndRename env
          (Join [d.savePath, generateFileName env.Sum256 env.Now videoURL "mp4".toList]) fs =
        (.ok (Join [d.savePath, generateFileName env.Sum256 env.Now videoURL "mp4".toList]),
          fs)) ∧
    (kind.Extension ≠ "mp4".toList →
      Join [d.savePath, generateFileName env.Sum256 env.Now videoURL kind.Extension] ≠
        Join [d.savePath, generateFileName env.Sum256 env.Now videoURL "mp4".toList] ∧
      Dir (Join [d.savePath, generateFileName env.Sum256 env.Now videoURL kind.Extension]) =
        Dir (Join [d.savePath, generateFileName env.Sum256 env.Now videoURL "mp4".toList]) ∧
      Base (Join [d.savePath, generateFileName env.Sum256 env.Now videoURL kind.Extension]) =
        TrimSuffix
          (Base (Join [d.savePath, generateFileName env.Sum256 env.Now videoURL "mp4".toList]))
          (Ext (Join [d.savePath, generateFileName env.Sum256 env.Now videoURL "mp4".toList]))
          ++ ".".toList ++ kind.Extension ∧
      (∀ fs1, osRename fs
          (Join [d.savePath, generateFileName env.Sum256 env.Now videoURL "mp4".toList])
          (Join [d.savePath, generateFileName env.Sum256 env.Now videoURL kind.Extension]) =
            (.ok (), fs1) →
        validateAndRename env
            (Join [d.savePath, generateFileName env.Sum256 env.Now videoURL "mp4".toList]) fs =
          (.ok (Join [d.savePath, generateFileName env.Sum256 env.Now videoURL kind.Extension]),
            fs1) ∧
        FS.lookup fs1
          (Join [d.savePath, generateFileName env.Sum256 env.Now videoURL kind.Extension]) =
            some (.file f) ∧
        FS.lookup fs1
          (Join [d.savePath, generateFileName env.Sum256 env.Now videoURL "mp4".toList]) =
            none) ∧
      (∀ err fs1, osRename fs
          (Join [d.savePath, generateFileName env.Sum256 env.Now videoURL "mp4".toList])
          (Join [d.savePath, generateFileName env.Sum256 env.Now videoURL kind.Extension]) =
            (.error err, fs1) →
        validateAndRename env
            (Join [d.savePath, generateFileName env.Sum256 env.Now videoURL "mp4".toList]) fs =
          (.ok (Join [d.savePath, generateFileName env.Sum256 env.Now videoURL "mp4".toList]),
            fs) ∧
        fs1 = fs)) := by
  have hmp4 : ∀ c ∈ "mp4".toList, IsPathSeparator c = false := fun c hc => (mp4_extension c hc).1
  have hname := isEntryName_generateFileName env.Sum256 env.Now videoURL "mp4".toList hmp4
  have hname2 := isEntryName_generateFileName env.Sum256 env.Now videoURL kind.Extension hsep
  have hExt : Ext (Join [d.savePath, generateFileName env.Sum256 env.Now videoURL "mp4".toList])
      = ".mp4".toList := by
    rw [provisional_path _ _ _ _ _ hmp4]
    exact Ext_append_dot _ _ mp4_extension
  have hBase := Base_Join_pair d.savePath _ hname
  have hstem : TrimSuffix
      (Base (Join [d.savePath, generateFileName env.Sum256 env.Now videoURL "mp4".toList]))
      (Ext (Join [d.savePath, generateFileName env.Sum256 env.Now videoURL "mp4".toList]))
        ++ ".".toList ++ kind.Extension =
      generateFileName env.Sum256 env.Now videoURL kind.Extension := by
    rw [hBase, hExt, generateFileName_eq, generateFileName_eq]
    have : fileStem env.Sum256 env.Now videoURL ++ '.' :: "mp4".toList =
        fileStem env.Sum256 env.Now videoURL ++ ".mp4".toList := rfl
    rw [this, TrimSuffix_append]
    simp
  have hnew : Join [Dir (Join [d.savePath,
        generateFileName env.Sum256 env.Now videoURL "mp4".toList]),
      TrimSuffix
        (Base (Join [d.savePath, generateFileName env.Sum256 env.Now videoURL "mp4".toList]))
        (Ext (Join [d.savePath, generateFileName env.Sum256 env.Now videoURL "mp4".toList]))
        ++ ".".toList ++ kind.Extension] =
      Join [d.savePath, generateFileName env.Sum256 env.Now videoURL kind.Extension] := by
    rw [hstem, Join_Dir_Join _ _ _ hname hname2]
  have hiff : Join [d.savePath, generateFileName env.Sum256 env.Now videoURL kind.Extension] =
      Join [d.savePath, generateFileName env.Sum256 env.Now videoURL "mp4".toList] ↔
      kind.Extension = "mp4".toList := by
    rw [provisional_path _ _ _ _ _ hsep, provisional_path _ _ _ _ _ hmp4]
    constructor
    · intro h
      have := List.append_cancel_left h
      simpa using this
    · intro h
      rw [h]
  have hopen : osOpen fs
      (Join [d.savePath, generateFileName env.Sum256 env.Now videoURL "mp4".toList]) =
      .ok (.file f) := by
    simp only [osOpen, hfile]
  have hread : fileRead (.file f) 8192 = .ok (f.data.take 8192) := rfl
  have hrun : validateAndRename env
      (Join [d.savePath, generateFileName env.Sum256 env.Now videoURL "mp4".toList]) fs =
      if Join [d.savePath, generateFileName env.Sum256 env.Now videoURL kind.Extension] ≠
          Join [d.savePath, generateFileName env.Sum256 env.Now videoURL "mp4".toList] then
        match osRename fs
          (Join [d.savePath, generateFileName env.Sum256 env.Now videoURL "mp4".toList])
          (Join [d.savePath, generateFileName env.Sum256 env.Now videoURL kind.Extension]) with
        | (.error _, fs1) =>
          (.ok (Join [d.savePath, generateFileName env.Sum256 env.Now videoURL "mp4".toList]),
            fs1)
        | (.ok _, fs1) =>
          (.ok (Join [d.savePath, generateFileName env.Sum256 env.Now videoURL kind.Extension]),
            fs1)
      else
        (.ok (Join [d.savePath, generateFileName env.Sum256 env.Now videoURL "mp4".toList]),
          fs) := by
    unfold validateAndRename
    simp only [hopen, hread, hmatch, hvideo, Bool.not_true, Bool.false_eq_true, if_false, ne_eq,
      hext, not_false_eq_true, if_true, hnew]
  refine ⟨hExt, ?_, ?_⟩
  · intro he
    rw [hrun, if_neg (by simpa using hiff.2 he)]
  · intro he
    have hne : Join [d.savePath, generateFileName env.Sum256 env.Now videoURL kind.Extension] ≠
        Join [d.savePath, generateFileName env.Sum256 env.Now videoURL "mp4".toList] :=
      fun h => he (hiff.1 h)
    refine ⟨hne, ?_, ?_, ?_, ?_⟩
    · rw [Dir_Join_pair _ _ hname, Dir_Join_pair _ _ hname2]
    · rw [hstem, Base_Join_pair _ _ hname2]
    · intro fs1 hren
      refine ⟨by rw [hrun, if_pos hne, hren], ?_, ?_⟩
      · unfold osRename at hren
        rw [hfile] at hren
        cases hl : FS.lookup fs
            (Join [d.savePath, generateFileName env.Sum256 env.Now videoURL kind.Extension]) with
        | none =>
          simp only [hl, Prod.mk.injEq, true_and] at hren
          rw [← hren, FS.lookup_set]
          simp
        | some node =>
          cases node with
          | dir => simp [hl] at hren
          | file g =>
            simp only [hl, Prod.mk.injEq, true_and] at hren
            rw [← hren, FS.lookup_set]
            simp
      · unfold osRename at hren
        rw [hfile] at hren
        cases hl : FS.lookup fs
            (Join [d.savePath, generateFileName env.Sum256 env.Now videoURL kind.Extension]) with
        | none =>
          simp only [hl, Prod.mk.injEq, true_and] at hren
          rw [← hren, FS.lookup_set, if_neg (Ne.symm hne), FS.lookup_erase]
          simp
        | some node =>
          cases node with
          | dir => simp [hl] at hren
          | file g =>
            simp only [hl, Prod.mk.injEq, true_and] at hren
            rw [← hren, FS.lookup_set, if_neg (Ne.symm hne), FS.lookup_erase]
            simp
    · intro err fs1 hren
      have hfs : fs1 = fs := by
        unfold osRename at hren
        rw [hfile] at hren
        cases hl : FS.lookup fs
            (Join [d.savePath, generateFileName env.Sum256 env.Now videoURL kind.Extension]) with
        | none => simp [hl] at hren
        | some node =>
          cases node with
          | dir =>
            simp only [hl, Prod.mk.injEq] at hren
            exact hren.2.symm
          | file g => simp [hl] at hren
      refine ⟨?_, hfs⟩
      rw [hrun, if_pos hne, hren, hfs]

set_option maxRecDepth 8192 in
theorem validateAndRename_extension_witness :
    validateAndRename (sampleEnv ⟨200, ⟨[1, 2, 3], none⟩⟩ "webm".toList)
        "/videos/video_abababababababab_1700000000.mp4".toList sampleStored =
      (.ok "/videos/video_abababababababab_1700000000.webm".toList,
        FS.set (FS.erase sampleStored "/videos/video_abababababababab_1700000000.mp4".toList)
          "/videos/video_abababababababab_1700000000.webm".toList
          (.file ⟨[1, 2, 3], 1700000000300000000⟩)) ∧
    validateAndRename (sampleEnv ⟨200, ⟨[1, 2, 3], none⟩⟩ "webm".toList)
        "/videos/video_abababababababab_1700000000.mp4".toList sampleBlocked =
      (.ok "/videos/video_abababababababab_1700000000.mp4".toList, sampleBlocked) :=
  ⟨(((validateAndRename_extension (sampleEnv ⟨200, ⟨[1, 2, 3], none⟩⟩ "webm".toList)
      sampleDownloader "http://host/v".toList sampleStored ⟨[1, 2, 3], 1700000000300000000⟩
      ⟨"webm".toList⟩ rfl rfl rfl (by decide) (by decide)).2.2 (by decide)).2.2.2.1 _ rfl).1,
   (((validateAndRename_extension (sampleEnv ⟨200, ⟨[1, 2, 3], none⟩⟩ "webm".toList)
      sampleDownloader "http://host/v".toList sampleBlocked ⟨[1, 2, 3], 1700000000300000000⟩
      ⟨"webm".toList⟩ rfl rfl rfl (by decide) (by decide)).2.2 (by decide)).2.2.2.2
      (.new ("rename ".toList ++ "/videos/video_abababababababab_1700000000.mp4".toList ++
        " ".toList ++ "/videos/video_abababababababab_1700000000.webm".toList ++
        ": file exists".toList)) _ rfl).1⟩

/-! ## video.go: the retention sweep -/

theorem FS.mem_of_lookup (fs : FS) (p : Str) (node : Node) (h : FS.lookup fs p = some node) :
    (p, node) ∈ fs := by
  induction fs with
  | nil => simp [FS.lookup] at h
  | cons e rest ih =>
    rcases e with ⟨q, n⟩
    by_cases hq : q = p
    · simp [FS.lookup, hq] at h
      simp [hq, h]
    · simp [FS.lookup, hq] at h
      exact List.mem_cons_of_mem _ (ih h)

/-- What lies below a direct entry of a directory is not itself a direct entry of it. -/
theorem not_isDirectEntry_of_below (dir sub p : Str) (hsub : isDirectEntry dir sub = true)
    (hp : HasPrefix p (sub ++ ['/']) = true) : isDirectEntry dir p = false := by
  cases hd : isDirectEntry dir p with
  | false => rfl
  | true =>
    exfalso
    simp only [isDirectEntry, Bool.and_eq_true, decide_eq_true_eq] at hsub hd
    obtain ⟨hn1, hj1⟩ := hsub
    obtain ⟨hn2, hj2⟩ := hd
    rw [Join_pair _ _ hn1] at hj1
    rw [Join_pair _ _ hn2] at hj2
    have hpre : sub ++ ['/'] <+: p := by
      simpa [HasPrefix, List.isPrefixOf_iff_prefix] using hp
    obtain ⟨t, ht⟩ := hpre
    rw [← hj1, ← hj2] at ht
    have hcancel : joinPrefix dir ++ (Base sub ++ '/' :: t) = joinPrefix dir ++ Base p := by
      simpa [List.append_assoc] using ht
    have hbase : Base sub ++ '/' :: t = Base p := List.append_cancel_left hcancel
    have hsepfree := ((isEntryName_iff _).1 hn2).2.2.2 '/' (by rw [← hbase]; simp)
    simp [IsPathSeparator] at hsepfree

/-- One step of the sweep, for the entry of a path `p` of the directory, on a file system that
has lost some paths of `fs0` and is otherwise equal to it. -/
theorem cleanupEntry_lookup (refuse : Str → Option GoError) (d : VideoDownloader) (cutoff : Time)
    (fs0 fs : FS) (p : Str) (entry : DirEntry)
    (hinv : ∀ q, FS.lookup fs q = none ∨ FS.lookup fs q = FS.lookup fs0 q)
    (hp : isDirectEntry d.savePath p = true) (he : dirEntryOf fs0 p = some entry) (q : Str) :
    FS.lookup (cleanupEntry refuse d cutoff fs entry) q =
      if q = p ∧ isFileBefore fs0 cutoff p = true ∧ refuse p = none then none
      else FS.lookup fs q := by
  have hjoin : Join [d.savePath, Base p] = p := by
    simp only [isDirectEntry, Bool.and_eq_true, decide_eq_true_eq] at hp
    exact hp.2
  unfold dirEntryOf at he
  cases h0 : FS.lookup fs0 p with
  | none => simp [h0] at he
  | some node =>
    cases node with
    | dir =>
      simp only [h0, Option.some.injEq] at he
      subst he
      simp [cleanupEntry, isFileBefore, h0]
    | file f =>
      simp only [h0, Option.some.injEq] at he
      subst he
      by_cases hlt : f.modTime < cutoff
      · have hstep : cleanupEntry refuse d cutoff fs ⟨Base p, false, .ok ⟨f.modTime⟩⟩ =
            (osRemove refuse fs p).2 := by
          simp [cleanupEntry, Time.Before, hlt, hjoin]
        have hb : isFileBefore fs0 cutoff p = true := by simp [isFileBefore, h0, hlt]
        rw [hstep]
        cases href : refuse p with
        | some err => simp [osRemove, href]
        | none =>
          rcases hinv p with hnone | hsame
          · by_cases hq : q = p
            · subst hq
              simp [osRemove, href, hnone, hb]
            · simp [osRemove, href, hnone, hq]
          · rw [h0] at hsame
            by_cases hq : q = p
            · subst hq
              simp [osRemove, href, hsame, FS.lookup_erase, hb]
            · simp [osRemove, href, hsame, FS.lookup_erase, hq]
      · have hstep : cleanupEntry refuse d cutoff fs ⟨Base p, false, .ok ⟨f.modTime⟩⟩ = fs := by
          simp [cleanupEntry, Time.Before, hlt]
        have hb : isFileBefore fs0 cutoff p = false := by simp [isFileBefore, h0, hlt]
        rw [hstep]
        simp [hb]

/-- The loop of the sweep over the entries of a list of paths of the directory. -/
theorem cleanup_foldl_lookup (refuse : Str → Option GoError) (d : VideoDownloader)
    (cutoff : Time) (fs0 : FS) :
    ∀ (paths : List Str) (fs : FS),
      (∀ q, FS.lookup fs q = none ∨ FS.lookup fs q = FS.lookup fs0 q) →
      (∀ p ∈ paths, isDirectEntry d.savePath p = true) →
      ∀ q, FS.lookup
          ((paths.filterMap (dirEntryOf fs0)).foldl (cleanupEntry refuse d cutoff) fs) q =
        if q ∈ paths ∧ isFileBefore fs0 cutoff q = true ∧ refuse q = none then none
        else FS.lookup fs q := by
  intro paths
  induction paths with
  | nil =>
    intro fs _ _ q
    simp
  | cons p rest ih =>
    intro fs hinv hdirect q
    have hrest : ∀ p ∈ rest, isDirectEntry d.savePath p = true :=
      fun x hx => hdirect x (List.mem_cons_of_mem _ hx)
    cases he : dirEntryOf fs0 p with
    | none =>
      have hnone : isFileBefore fs0 cutoff p = false := by
        unfold dirEntryOf at he
        cases h0 : FS.lookup fs0 p with
        | none => simp [isFileBefore, h0]
        | some node => cases node <;> simp [h0] at he
      rw [List.filterMap_cons_none he, ih fs hinv hrest q]
      by_cases hq : q = p
      · subst hq
        simp [hnone]
      · simp [hq]
    | some entry =>
      rw [List.filterMap_cons_some he, List.foldl_cons]
      have hstep := cleanupEntry_lookup refuse d cutoff fs0 fs p entry hinv
        (hdirect p (List.mem_cons_self _ _)) he
      have hinv2 : ∀ q, FS.lookup (cleanupEntry refuse d cutoff fs entry) q = none ∨
          FS.lookup (cleanupEntry refuse d cutoff fs entry) q = FS.lookup fs0 q := by
        intro x
        rw [hstep x]
        split
        · exact Or.inl rfl
        · exact hinv x
      rw [ih _ hinv2 hrest q, hstep q]
      by_cases hq : q = p
      · subst hq
        by_cases hc : isFileBefore fs0 cutoff q = true ∧ refuse q = none
        · simp [hc]
        · simp [hc]
      · simp [hq]

theorem cleanup_foldl_id (refuse : Str → Option GoError) (d : VideoDownloader) (cutoff : Time)
    (fs : FS) :
    ∀ (entries : List DirEntry), (∀ e ∈ entries, cleanupEntry refuse d cutoff fs e = fs) →
      entries.foldl (cleanupEntry refuse d cutoff) fs = fs := by
  intro entries
  induction entries with
  | nil => intro _; rfl
  | cons e rest ih =>
    intro h
    rw [List.foldl_cons, h e (List.mem_cons_self _ _)]
    exact ih (fun x hx => h x (List.mem_cons_of_mem _ hx))

/-- The sweep with any age: a path is removed exactly when it is a direct entry of the save
directory that names a regular file modified strictly before `now - maxAge`, and the system
does not refuse its removal. -/
theorem CleanupOldVideos_lookup (now : Time) (refuse : Str → Option GoError)
    (d : VideoDownloader) (maxAge : Int) (fs : FS)
    (hdir : FS.lookup fs (Clean d.savePath) = some .dir) :
    CleanupOldVideos now refuse d maxAge fs =
      (.ok (), (((fs.filter (fun e => isDirectEntry d.savePath e.1)).map Prod.fst).filterMap
        (dirEntryOf fs)).foldl (cleanupEntry refuse d (now + -maxAge)) fs) ∧
    ∀ q, FS.lookup (CleanupOldVideos now refuse d maxAge fs).2 q =
      if isDirectEntry d.savePath q = true ∧ isFileBefore fs (now + -maxAge) q = true ∧
          refuse q = none then none
      else FS.lookup fs q := by
  have hrun : CleanupOldVideos now refuse d maxAge fs =
      (.ok (), (((fs.filter (fun e => isDirectEntry d.savePath e.1)).map Prod.fst).filterMap
        (dirEntryOf fs)).foldl (cleanupEntry refuse d (now + -maxAge)) fs) := by
    simp [CleanupOldVideos, osReadDir, hdir, Time.Add, List.filterMap_map, Function.comp_def]
  rw [hrun]
  refine ⟨rfl, fun q => ?_⟩
  have h := cleanup_foldl_lookup refuse d (now + -maxAge) fs
    ((fs.filter (fun e => isDirectEntry d.savePath e.1)).map Prod.fst) fs
    (fun _ => Or.inr rfl)
    (by
      intro p hp
      obtain ⟨e, he, rfl⟩ := List.mem_map.1 hp
      exact (List.mem_filter.1 he).2) q
  rw [h]
  cases hs : isFileBefore fs (now + -maxAge) q with
  | false => simp only [Bool.false_eq_true, false_and, and_false, if_false]
  | true =>
    have hmem : ∃ node, (q, node) ∈ fs := by
      unfold isFileBefore at hs
      cases h0 : FS.lookup fs q with
      | none => simp [h0] at hs
      | some node => exact ⟨node, FS.mem_of_lookup fs q node h0⟩
    obtain ⟨node, hmem⟩ := hmem
    by_cases hd : isDirectEntry d.savePath q = true
    · have hq : q ∈ (fs.filter (fun e => isDirectEntry d.savePath e.1)).map Prod.fst :=
        List.mem_map.2 ⟨(q, node), List.mem_filter.2 ⟨hmem, hd⟩, rfl⟩
      simp only [hq, hd, true_and]
    · have hd2 : isDirectEntry d.savePath q = false := by simpa using hd
      have hq : q ∉ (fs.filter (fun e => isDirectEntry d.savePath e.1)).map Prod.fst := by
        intro hq
        obtain ⟨e, he, rfl⟩ := List.mem_map.1 hq
        exact hd (List.mem_filter.1 he).2
      simp only [hq, hd2, Bool.false_eq_true, false_and, if_false]

/-- C8, amended. `CleanupOldVideos` with `maxAge = 0`, run at the instant `now` on an existing
save directory, succeeds; it removes every regular file that is a direct entry of the save
directory, was modified strictly before `now`, and whose removal the system does not refuse;
it leaves every subdirectory, and everything below a subdirectory, as it was; and a second run
right after the first, at an instant `now2`, changes nothing, provided no regular file of the
directory was modified from `now` up to `now2` and the system refuses the same removals. -/
theorem CleanupOldVideos_zero_age (now : Time) (refuse : Str → Option GoError)
    (d : VideoDownloader) (fs : FS)
    (hdir : FS.lookup fs (Clean d.savePath) = some .dir) :
    (CleanupOldVideos now refuse d 0 fs).1 = .ok () ∧
    (∀ p, isDirectEntry d.savePath p = true → isFileBefore fs now p = true →
      refuse p = none → FS.lookup (CleanupOldVideos now refuse d 0 fs).2 p = none) ∧
    (∀ sub, FS.lookup fs sub = some .dir →
      FS.lookup (CleanupOldVideos now refuse d 0 fs).2 sub = some .dir) ∧
    (∀ sub p, isDirectEntry d.savePath sub = true → FS.lookup fs sub = some .dir →
      HasPrefix p (sub ++ ['/']) = true →
      FS.lookup (CleanupOldVideos now refuse d 0 fs).2 p = FS.lookup fs p) ∧
    (∀ now2 : Time,
      (∀ p, isDirectEntry d.savePath p = true → isFileBefore fs now2 p = true →
        isFileBefore fs now p = true) →
      CleanupOldVideos now2 refuse d 0 (CleanupOldVideos now refuse d 0 fs).2 =
        (.ok (), (CleanupOldVideos now refuse d 0 fs).2)) := by
  obtain ⟨hrun, hlook⟩ := CleanupOldVideos_lookup now refuse d 0 fs hdir
  have hzero : ∀ t : Time, t + -(0 : Int) = t := by intro t; simp
  rw [hzero] at hlook
  have hkeepdir : ∀ sub, FS.lookup fs sub = some .dir →
      FS.lookup (CleanupOldVideos now refuse d 0 fs).2 sub = some .dir := by
    intro sub hsub
    rw [hlook sub, if_neg (by simp [isFileBefore, hsub]), hsub]
  refine ⟨by rw [hrun], ?_, hkeepdir, ?_, ?_⟩
  · intro p h1 h2 h3
    rw [hlook p, if_pos ⟨h1, h2, h3⟩]
  · intro sub p hsub _ hp
    have hnd := not_isDirectEntry_of_below d.savePath sub p hsub hp
    rw [hlook p, if_neg (by simp [hnd])]
  · intro now2 hquiet
    have hdir2 := hkeepdir _ hdir
    obtain ⟨hrun2, _⟩ :=
      CleanupOldVideos_lookup now2 refuse d 0 (CleanupOldVideos now refuse d 0 fs).2 hdir2
    rw [hrun2, hzero]
    congr 1
    apply cleanup_foldl_id
    intro e he
    obtain ⟨p, hp, hpe⟩ := List.mem_filterMap.1 he
    obtain ⟨x, hx, rfl⟩ := List.mem_map.1 hp
    have hdirect : isDirectEntry d.savePath x.1 = true := (List.mem_filter.1 hx).2
    unfold dirEntryOf at hpe
    cases h0 : FS.lookup (CleanupOldVideos now refuse d 0 fs).2 x.1 with
    | none => simp [h0] at hpe
    | some node =>
      cases node with
      | dir =>
        simp only [h0, Option.some.injEq] at hpe
        subst hpe
        simp [cleanupEntry]
      | file f =>
        simp only [h0, Option.some.injEq] at hpe
        subst hpe
        have hcond : ¬ (isDirectEntry d.savePath x.1 = true ∧ isFileBefore fs now x.1 = true ∧
            refuse x.1 = none) := by
          intro hc
          rw [hlook x.1, if_pos hc] at h0
          simp at h0
        have h1 : FS.lookup fs x.1 = some (.file f) := by
          rw [← h0, hlook x.1, if_neg hcond]
        have hjoin : Join [d.savePath, Base x.1] = x.1 := by
          simp only [isDirectEntry, Bool.and_eq_true, decide_eq_true_eq] at hdirect
          exact hdirect.2
        by_cases hlt : f.modTime < now2
        · have hb2 : isFileBefore fs now2 x.1 = true := by simp [isFileBefore, h1, hlt]
          have hb : isFileBefore fs now x.1 = true := hquiet _ hdirect hb2
          have href : refuse x.1 ≠ none := fun h => hcond ⟨hdirect, hb, h⟩
          obtain ⟨err, herr⟩ := Option.ne_none_iff_exists'.1 href
          simp [cleanupEntry, Time.Before, hlt, hjoin, osRemove, herr]
        · simp [cleanupEntry, Time.Before, hlt]

/-- No regular file of `fs` was modified from `t1` up to `t2`, read off the list of files. -/
theorem isFileBefore_of_all (fs : FS) (t1 t2 : Time) (p : Str)
    (h : fs.all (fun e =>
      match e.2 with
      | .file f => decide (¬ f.modTime < t2 ∨ f.modTime < t1)
      | .dir => true) = true)
    (hb : isFileBefore fs t2 p = true) : isFileBefore fs t1 p = true := by
  unfold isFileBefore at hb ⊢
  cases h0 : FS.lookup fs p with
  | none => simp [h0] at hb
  | some node =>
    cases node with
    | dir => simp [h0] at hb
    | file f =>
      have hlt : f.modTime < t2 := by simpa [h0] using hb
      have hmem := FS.mem_of_lookup fs p _ h0
      have := List.all_eq_true.1 h _ hmem
      simp only [decide_eq_true_eq] at this
      rcases this with h1 | h1
      · exact absurd hlt h1
      · simp [h1]

theorem CleanupOldVideos_zero_age_witness :
    FS.lookup (CleanupOldVideos 1700000000000000000 refuseNone sampleDownloader 0 sampleFS).2
        "/videos/old.mp4".toList = none ∧
      FS.lookup (CleanupOldVideos 1700000000000000000 refuseNone sampleDownloader 0 sampleFS).2
        "/videos/sub/kept.mp4".toList = some (.file ⟨[4], 1500000000000000000⟩) ∧
      CleanupOldVideos 1700000000000000005 refuseNone sampleDownloader 0
          (CleanupOldVideos 1700000000000000000 refuseNone sampleDownloader 0 sampleFS).2 =
        (.ok (), (CleanupOldVideos 1700000000000000000 refuseNone sampleDownloader 0 sampleFS).2) :=
  ⟨(CleanupOldVideos_zero_age 1700000000000000000 refuseNone sampleDownloader sampleFS rfl).2.1
      "/videos/old.mp4".toList (by decide) (by decide) rfl,
    ((CleanupOldVideos_zero_age 1700000000000000000 refuseNone sampleDownloader sampleFS
      rfl).2.2.2.1 "/videos/sub".toList "/videos/sub/kept.mp4".toList (by decide) (by decide)
      (by decide)).trans (by decide),
    (CleanupOldVideos_zero_age 1700000000000000000 refuseNone sampleDownloader sampleFS
      rfl).2.2.2.2 1700000000000000005
      (fun p _ hb => isFileBefore_of_all sampleFS _ _ p (by decide) hb)⟩

/-- C8 as stated fails: a regular file of the save directory whose modification time is the
instant of the sweep is not removed by `CleanupOldVideos` with `maxAge = 0`, and a second run
one nanosecond later, which removes it, is not a no-op; and on a system that refuses the
removal, an older regular file of the save directory is not removed either. -/
theorem CleanupOldVideos_zero_age_keeps_current :
    isDirectEntry sampleDownloader.savePath "/videos/old.mp4".toList = true ∧
    FS.lookup sampleFS "/videos/old.mp4".toList =
      some (.file ⟨[1, 2, 3], 1600000000000000000⟩) ∧
    FS.lookup (CleanupOldVideos 1600000000000000000 refuseNone sampleDownloader 0 sampleFS).2
      "/videos/old.mp4".toList = some (.file ⟨[1, 2, 3], 1600000000000000000⟩) ∧
    FS.lookup (CleanupOldVideos 1600000000000000001 refuseNone sampleDownloader 0
      (CleanupOldVideos 1600000000000000000 refuseNone sampleDownloader 0 sampleFS).2).2
      "/videos/old.mp4".toList = none ∧
    FS.lookup (CleanupOldVideos 1700000000000000000 refuseAll sampleDownloader 0 sampleFS).2
      "/videos/old.mp4".toList = some (.file ⟨[1, 2, 3], 1600000000000000000⟩) := by
  decide

end Downloader
